import Mathlib

/-!
Verification of the Lox language repository: the Lark grammar
(src/unnamed/part_000), the C token-printing driver (src/src/compiler.c),
and the interpreter pipeline the specification describes.  The repository
itself contains only the grammar and the C driver; where a claim is decided
by interpreter code that is not in the repository, the relevant fragment is
modelled from the specification and each such definition says so in its
doc comment.
-/

namespace Lox

/-! ## Lexical terminals -/

/-- Whitespace characters, the regex character class `\s`. -/
def isWS (c : Char) : Bool :=
  c = ' ' || c = '\t' || c = '\n' || c = '\r' || c = '\x0b' || c = '\x0c'

/-- The COMMENT terminal exactly as the grammar defines it
(src/unnamed/part_000, line 126): `COMMENT: /\s*/ "//" /[^\n]/*`,
matched maximally (longest match) at the start of the input.
Returns the number of characters matched, or `none` when the input does not
begin with a comment. -/
def commentMatchLen (s : List Char) : Option Nat :=
  let w := s.takeWhile isWS
  match s.drop w.length with
  | '/' :: '/' :: t => some (w.length + 2 + (t.takeWhile (fun c => c != '\n')).length)
  | _ => none

/-- Modelled from the spec: the NUMBER terminal (the grammar imports it from
the external Lark common library, which is not part of the repository): one
or more digits, optionally followed by `.` and one or more digits; a `.` not
followed by a digit is not consumed.  Longest match at the start of the
input; returns the number of characters matched. -/
def numberMatchLen (s : List Char) : Option Nat :=
  let d := s.takeWhile Char.isDigit
  if d.length = 0 then none
  else
    match s.drop d.length with
    | '.' :: t =>
        let d2 := t.takeWhile Char.isDigit
        if d2.length = 0 then some d.length else some (d.length + 1 + d2.length)
    | _ => some d.length

/-- Tokens for the fragment of the lexer exercised by the number claims. -/
inductive MiniTok where
  | num (lexeme : List Char)
  | dot
  | other (c : Char)
deriving DecidableEq

/-- One-token-at-a-time scan using maximal-munch NUMBER matching, a `.`
token, and a catch-all for any other character. -/
def miniScan : Nat → List Char → List MiniTok
  | 0, _ => []
  | _+1, [] => []
  | fuel+1, c :: rest =>
      match numberMatchLen (c :: rest) with
      | some k => .num ((c :: rest).take k) :: miniScan fuel ((c :: rest).drop k)
      | none => (if c = '.' then .dot else .other c) :: miniScan fuel rest

/-- Modelled from the spec: the STRING terminal (the grammar imports the
external Lark common library's ESCAPED_STRING, which is not part of the
repository).  Given the input after an opening quote, returns how many
characters are consumed up to and including the closing quote.  The escape
sequences for a quote and for a backslash are consumed as units (the only
escapes the spec demands); strings may span multiple lines; reaching the end
of input with no closing quote is a lexical error (`none`). -/
def stringTail : List Char → Option Nat
  | [] => none
  | [c] => if c = '"' then some 1 else none
  | c :: d :: rest2 =>
      if c = '"' then some 1
      else if c = '\\' then
        if d = '"' ∨ d = '\\' then (stringTail rest2).map (· + 2)
        else (stringTail (d :: rest2)).map (· + 1)
      else (stringTail (d :: rest2)).map (· + 1)

/-- Match a whole string literal at the start of the input: an opening
quote followed by `stringTail`. -/
def stringMatchLen : List Char → Option Nat
  | '"' :: rest => (stringTail rest).map (· + 1)
  | _ => none

/-! ## The C driver (src/src/compiler.c) -/

/-- A token as produced by the C scanner: the numeric token type, the lexeme
(the `start`/`length` slice of the source) and the source line. -/
structure CToken where
  type : Nat
  lexeme : String
  line : Int
deriving DecidableEq

/-- Modelled from the spec: `TOKEN_EOF` is a distinguished member of the C
scanner's token-type enumeration (`scanner.h` is not in the repository; only
its distinguishedness matters to `compile`). -/
def TOKEN_EOF : Nat := 39

/-- `printf` right alignment: `%4d` and `%2d` pad the decimal form with
spaces on the left up to the field width. -/
def padInt (width : Nat) (n : Int) : String :=
  let s := toString n
  String.mk (List.replicate (width - s.length) ' ') ++ s

/-- The single-quote character used by the `%2d '%.*s'` format. -/
def quoteCh : String := String.mk [Char.ofNat 39]

/-- One line of `compile` output for token `t`, given the value of the
`line` variable before the iteration: `printf("%4d ", ...)` when the token
line differs from it, the filler `   | ` otherwise, then the token type in
width 2 and the quoted lexeme (the terminating newline separates lines and
is not part of the string). -/
def tokenLine (prev : Int) (t : CToken) : String :=
  (if t.line ≠ prev then padInt 4 t.line ++ " " else "   | ")
    ++ padInt 2 (Int.ofNat t.type) ++ " " ++ quoteCh ++ t.lexeme ++ quoteCh

/-- The loop of `compile`: scan a token, print its line, stop after printing
the first EOF token.  `toks i` is the result of the `i`-th call to
`scanToken`; the fuel bounds the number of iterations of the C `for (;;)`
loop, `none` meaning the bound was hit first. -/
def compileLoop (toks : Nat → CToken) : Nat → Nat → Int → Option (List String)
  | 0, _, _ => none
  | fuel+1, i, line =>
      let t := toks i
      if t.type = TOKEN_EOF then some [tokenLine line t]
      else (compileLoop toks fuel (i+1) t.line).map (tokenLine line t :: ·)

/-- `compile` from src/src/compiler.c, the scanner abstracted as the stream
of its successive results; the `line` variable starts at `-1`. -/
def compile (toks : Nat → CToken) (fuel : Nat) : Option (List String) :=
  compileLoop toks fuel 0 (-1)

/-- The output line for a token as the specification describes it: the
line-number prefix appears exactly when `withNum` holds, the filler
otherwise. -/
def specTokenLine (withNum : Bool) (t : CToken) : String :=
  (if withNum then padInt 4 t.line ++ " " else "   | ")
    ++ padInt 2 (Int.ofNat t.type) ++ " " ++ quoteCh ++ t.lexeme ++ quoteCh

/-- The list of lines `compile` is expected to print for tokens
`0, 1, ..., n` of the stream, threading the previously printed token's
line. -/
def outLines (toks : Nat → CToken) : Nat → Int → List String
  | 0, prev => [tokenLine prev (toks 0)]
  | n+1, prev => tokenLine prev (toks 0) :: outLines (fun i => toks (i+1)) n (toks 0).line

/-- A two-token scanner stream used as a concrete instance: one `var`
keyword token on line 1, then EOF on line 2. -/
def demoToks : Nat → CToken := fun i => if i = 0 then ⟨1, "var", 1⟩ else ⟨39, "", 2⟩

/-! ## The tree-walking interpreter

Modelled from the spec: the repository's parser, resolver and evaluator are
not under src/ (the repository holds the grammar and the stub C driver), so
the language fragment needed by the `for`-desugaring claim is modelled from
the specification: values, a lexical environment chain, expressions with
assignment and short-circuit logic, and statements including blocks, `if`,
`while`, `print` and variable declarations.  Numbers are modelled with `Int`
(the claim under verification is independent of the numeric domain). -/

/-- Runtime values. -/
inductive Value where
  | nil
  | bool (b : Bool)
  | num (n : Int)
  | str (s : String)
deriving DecidableEq

/-- Truthiness: `false` and `nil` are falsy; everything else is truthy. -/
def truthy : Value → Bool
  | .nil => false
  | .bool b => b
  | _ => true

/-- Rendering of values by `print` (numbers in the integer model). -/
def render : Value → String
  | .nil => "nil"
  | .bool true => "true"
  | .bool false => "false"
  | .num n => toString n
  | .str s => s

/-- Unary operators. -/
inductive UOp where
  | neg
  | bnot
deriving DecidableEq

/-- Binary (non-short-circuit) operators. -/
inductive BOp where
  | add | sub | mul | div | lt | le | gt | ge | eq | ne
deriving DecidableEq

/-- Short-circuit logical operators. -/
inductive LOp where
  | andOp
  | orOp
deriving DecidableEq

/-- Expressions of the modelled fragment. -/
inductive Expr where
  | lit (v : Value)
  | var (name : String)
  | assign (name : String) (value : Expr)
  | grouping (e : Expr)
  | unary (op : UOp) (e : Expr)
  | binary (op : BOp) (l : Expr) (r : Expr)
  | logical (op : LOp) (l : Expr) (r : Expr)
deriving DecidableEq

/-- One lexical scope: a name-to-value table. -/
abbrev Scope := List (String × Value)

/-- The environment chain: the innermost scope plus the enclosing scopes,
outermost (the globals) last.  Keeping the innermost scope as a separate
field makes the chain non-empty by construction, as in the interpreter,
where the global scope always exists. -/
structure Env where
  head : Scope
  rest : List Scope
deriving DecidableEq

/-- Replace the binding of `x` in a single scope, if present. -/
def scopeSet (s : Scope) (x : String) (v : Value) : Option Scope :=
  match s with
  | [] => none
  | (y, w) :: t =>
      if y == x then some ((y, v) :: t)
      else (scopeSet t x v).map ((y, w) :: ·)

/-- `var` definition into a single scope: overwrite an existing binding,
otherwise append one. -/
def scopeDefine (s : Scope) (x : String) (v : Value) : Scope :=
  match s with
  | [] => [(x, v)]
  | (y, w) :: t => if y == x then (y, v) :: t else (y, w) :: scopeDefine t x v

/-- Read a variable from a scope chain, innermost scope first. -/
def listGet : List Scope → String → Option Value
  | [], _ => none
  | s :: t, x =>
      match s.lookup x with
      | some v => some v
      | none => listGet t x

/-- Write to an existing variable in the nearest scope of the chain that
binds it; `none` when no scope binds it (an undefined-variable runtime
error). -/
def listSet : List Scope → String → Value → Option (List Scope)
  | [], _, _ => none
  | s :: t, x, v =>
      match scopeSet s x v with
      | some s2 => some (s2 :: t)
      | none => (listSet t x v).map (s :: ·)

/-- The environment as a plain scope chain, innermost first. -/
def Env.toList (e : Env) : List Scope := e.head :: e.rest

/-- Read a variable. -/
def envGet (e : Env) (x : String) : Option Value := listGet e.toList x

/-- Assign to an existing variable. -/
def envSet (e : Env) (x : String) (v : Value) : Option Env :=
  match listSet e.toList x v with
  | some (h :: r) => some ⟨h, r⟩
  | _ => none

/-- `var` definition: always into the innermost scope. -/
def envDefine (e : Env) (x : String) (v : Value) : Env :=
  ⟨scopeDefine e.head x v, e.rest⟩

/-- Unary application. -/
def unaryOp : UOp → Value → Option Value
  | .neg, .num n => some (.num (-n))
  | .neg, _ => none
  | .bnot, v => some (.bool (!truthy v))

/-- Binary application: `+` on two numbers or two strings; arithmetic and
comparison on numbers; equality on all values. -/
def binOp : BOp → Value → Value → Option Value
  | .add, .num a, .num b => some (.num (a + b))
  | .add, .str a, .str b => some (.str (a ++ b))
  | .add, _, _ => none
  | .sub, .num a, .num b => some (.num (a - b))
  | .sub, _, _ => none
  | .mul, .num a, .num b => some (.num (a * b))
  | .mul, _, _ => none
  | .div, .num a, .num b => some (.num (a / b))
  | .div, _, _ => none
  | .lt, .num a, .num b => some (.bool (decide (a < b)))
  | .lt, _, _ => none
  | .le, .num a, .num b => some (.bool (decide (a ≤ b)))
  | .le, _, _ => none
  | .gt, .num a, .num b => some (.bool (decide (b < a)))
  | .gt, _, _ => none
  | .ge, .num a, .num b => some (.bool (decide (b ≤ a)))
  | .ge, _, _ => none
  | .eq, a, b => some (.bool (a == b))
  | .ne, a, b => some (.bool (a != b))

/-- Expression evaluation.  Expressions do not print; they may read and
write variables; `none` is a runtime error. -/
def eval : Expr → Env → Option (Value × Env)
  | .lit v, e => some (v, e)
  | .var x, e =>
      match envGet e x with
      | some v => some (v, e)
      | none => none
  | .assign x rhs, e =>
      match eval rhs e with
      | none => none
      | some (v, e1) =>
          match envSet e1 x v with
          | none => none
          | some e2 => some (v, e2)
  | .grouping g, e => eval g e
  | .unary op g, e =>
      match eval g e with
      | none => none
      | some (v, e1) =>
          match unaryOp op v with
          | none => none
          | some r => some (r, e1)
  | .binary op l r, e =>
      match eval l e with
      | none => none
      | some (a, e1) =>
          match eval r e1 with
          | none => none
          | some (b, e2) =>
              match binOp op a b with
              | none => none
              | some v => some (v, e2)
  | .logical op l r, e =>
      match eval l e with
      | none => none
      | some (a, e1) =>
          match op with
          | .orOp => if truthy a then some (a, e1) else eval r e1
          | .andOp => if truthy a then eval r e1 else some (a, e1)

/-- Statements of the modelled fragment.  In `forS` the three optional
components follow the grammar: initializer (absent when the
`empty_initializer` alternative is taken), condition, increment. -/
inductive Stmt where
  | exprS (e : Expr)
  | printS (e : Expr)
  | varS (name : String) (i : Option Expr)
  | block (body : List Stmt)
  | ifS (cond : Expr) (thn : Stmt) (els : Option Stmt)
  | whileS (cond : Expr) (body : Stmt)
  | forS (first : Option Stmt) (cond : Option Expr) (incr : Option Expr) (body : Stmt)

/-- The grammar's `statement` category: the bodies of `for`, `if` and
`while` are statements, never bare declarations, so a `var` declaration can
occur only at a declaration position (directly inside a block or a `for`
initializer). -/
def isStatement : Stmt → Bool
  | .varS _ _ => false
  | .block _ => true
  | .exprS _ => true
  | .printS _ => true
  | .ifS _ t e => isStatement t && (match e with | some s => isStatement s | none => true)
  | .whileS _ b => isStatement b
  | .forS _ _ _ b => isStatement b

/-- Interpreter state: the environment chain and the output printed so
far. -/
structure St where
  env : Env
  out : List String
deriving DecidableEq

/-- Result of executing a statement: normal completion with the new state,
or a runtime error, which aborts execution (the output so far is the
observation). -/
inductive Res where
  | ok (σ : St)
  | err (out : List String)
deriving DecidableEq

/-- Enter a block: push a fresh empty innermost scope. -/
def pushSt (σ : St) : St := ⟨⟨[], σ.env.head :: σ.env.rest⟩, σ.out⟩

/-- Leave a block: drop the innermost scope. -/
def popEnv (e : Env) : Env :=
  match e.rest with
  | h :: r => ⟨h, r⟩
  | [] => e

/-- Sequencing: propagate fuel exhaustion and runtime errors. -/
def andThen (x : Option Res) (k : St → Option Res) : Option Res :=
  match x with
  | none => none
  | some (.err o) => some (.err o)
  | some (.ok σ) => k σ

/-- Pop the innermost scope of a normally completed result (a block exit). -/
def popOk : Option Res → Option Res
  | some (.ok σ) => some (.ok ⟨popEnv σ.env, σ.out⟩)
  | x => x

/-- Evaluate an expression inside statement execution: a failed evaluation
becomes a runtime error carrying the output so far. -/
def evalIn (g : Expr) (σ : St) (k : Value → St → Option Res) : Option Res :=
  match eval g σ.env with
  | none => some (.err σ.out)
  | some (v, e2) => k v ⟨e2, σ.out⟩

/-- The condition of a `for` loop: the literal `true` when absent. -/
def condExpr (c : Option Expr) : Expr := c.getD (.lit (.bool true))

/-- A unit of interpreter work: one statement, a declaration list (a block
body), or the iteration of a `for` loop. -/
inductive Work where
  | one (s : Stmt)
  | many (ss : List Stmt)
  | loop (c : Option Expr) (n : Option Expr) (b : Stmt)

/-- The interpreter.  Fuel bounds the recursion depth (`none` = fuel ran
out).  A `for` statement is executed directly: run the initializer once in
its own scope (when present), then repeatedly evaluate the condition, run
the body, and evaluate the increment expression (when present). -/
def run : Nat → Work → St → Option Res
  | 0, _, _ => none
  | fuel+1, w, σ =>
    match w with
    | .one s =>
      match s with
      | .exprS g => evalIn g σ fun _ σ2 => some (.ok σ2)
      | .printS g => evalIn g σ fun v σ2 => some (.ok ⟨σ2.env, σ2.out ++ [render v]⟩)
      | .varS x i => evalIn (i.getD (.lit .nil)) σ fun v σ2 =>
          some (.ok ⟨envDefine σ2.env x v, σ2.out⟩)
      | .block ss => popOk (run fuel (.many ss) (pushSt σ))
      | .ifS c t e => evalIn c σ fun v σ2 =>
          if truthy v then run fuel (.one t) σ2
          else
            match e with
            | some s2 => run fuel (.one s2) σ2
            | none => some (.ok σ2)
      | .whileS c b => evalIn c σ fun v σ2 =>
          if truthy v then
            andThen (run fuel (.one b) σ2) fun σ3 => run fuel (.one (.whileS c b)) σ3
          else some (.ok σ2)
      | .forS none c n b => run fuel (.loop c n b) σ
      | .forS (some i) c n b =>
          andThen (run fuel (.one i) (pushSt σ)) fun σ2 =>
            popOk (run fuel (.loop c n b) σ2)
    | .many [] => some (.ok σ)
    | .many (s :: t) => andThen (run fuel (.one s) σ) fun σ2 => run fuel (.many t) σ2
    | .loop c n b => evalIn (condExpr c) σ fun v σ2 =>
        if truthy v then
          andThen (run fuel (.one b) σ2) fun σ3 =>
            match n with
            | none => run fuel (.loop c n b) σ3
            | some g => evalIn g σ3 fun _ σ4 => run fuel (.loop c n b) σ4
        else some (.ok σ2)

/-- Execute one statement. -/
def exec (fuel : Nat) (s : Stmt) (σ : St) : Option Res := run fuel (.one s) σ

/-- Execute the declarations of a block body in order. -/
def execList (fuel : Nat) (ss : List Stmt) (σ : St) : Option Res :=
  run fuel (.many ss) σ

/-- The iteration of a `for` statement. -/
def forRun (fuel : Nat) (c : Option Expr) (n : Option Expr) (b : Stmt) (σ : St) : Option Res :=
  run fuel (.loop c n b) σ

/-- The loop body produced by the `for` desugaring: the increment is
appended inside a block with the body only when present. -/
def loopBody (n : Option Expr) (b : Stmt) : Stmt :=
  match n with
  | some g => .block [b, .exprS g]
  | none => b

/-- The `for` desugaring performed by the parser (modelled from the spec
and from the grammar comment at src/unnamed/part_000, line 32):
`for (init; cond; incr) body` becomes
`{ init; while (cond) { body; incr; } }`, the condition defaulting to the
literal `true` when absent, the increment being appended inside the loop
body only when present, and the initializer (with its enclosing block)
being elided when the `empty_initializer` alternative was taken. -/
def desugarFor (first : Option Stmt) (c : Option Expr) (n : Option Expr) (b : Stmt) : Stmt :=
  let w := Stmt.whileS (condExpr c) (loopBody n b)
  match first with
  | some i => .block [i, w]
  | none => w

/-- Insert an empty scope at depth `k` of a scope chain. -/
def insertNil (k : Nat) (l : List Scope) : List Scope :=
  l.take k ++ ([] : Scope) :: l.drop k

/-- Insert an empty scope at depth `k` of an environment (depth 0 is a new
innermost scope). -/
def envInsAt : Nat → Env → Env
  | 0, e => ⟨[], e.head :: e.rest⟩
  | k+1, e => ⟨e.head, insertNil k e.rest⟩

/-- Insert an empty scope at depth `k` of a state's environment. -/
def liftSt (k : Nat) (σ : St) : St := ⟨envInsAt k σ.env, σ.out⟩

/-- Insert an empty scope at depth `k` of a result's environment. -/
def liftRes (k : Nat) : Res → Res
  | .ok σ => .ok (liftSt k σ)
  | .err o => .err o

/-! ## The parser

Modelled from the spec and guided by the grammar (src/unnamed/part_000):
a recursive-descent expression parser with the precedence chain
assignment, `or`, `and`, equality, comparison, term, factor, unary,
call/property access, primary.  Errors that abort parsing are `none`;
reported-but-non-fatal errors (the arity limit, an invalid assignment
target) are appended to an error log while parsing continues. -/

/-- Tokens of the expression sublanguage. -/
inductive Tok where
  | IDENT (name : String)
  | NUM (n : Int)
  | STR (s : String)
  | KTRUE | KFALSE | KNIL | KTHIS | KSUPER | KAND | KOR
  | BANG | BANGEQ | EQEQ | EQ | LT | LE | GT | GE
  | PLUS | MINUS | STAR | SLASH
  | LPAREN | RPAREN | DOT | COMMA
deriving DecidableEq

mutual
/-- Expression AST nodes built by the parser.  `logical` (for `and`/`or`)
and `binary` are distinct variants. -/
inductive PExpr where
  | lit (v : Value)
  | varE (name : String)
  | assignE (name : String) (value : PExpr)
  | grouping (e : PExpr)
  | unary (op : Tok) (e : PExpr)
  | binary (l : PExpr) (op : Tok) (r : PExpr)
  | logical (l : PExpr) (op : Tok) (r : PExpr)
  | call (callee : PExpr) (args : PArgs)
  | get (obj : PExpr) (name : String)
  | set (obj : PExpr) (name : String) (value : PExpr)
  | thisE
  | superE (meth : String)
deriving DecidableEq
/-- Argument list of a call node. -/
inductive PArgs where
  | nilA
  | consA (e : PExpr) (t : PArgs)
deriving DecidableEq
end

/-- Convert a plain list of expressions into a call argument list. -/
def PArgs.ofList : List PExpr → PArgs
  | [] => .nilA
  | e :: t => .consA e (PArgs.ofList t)

/-- Parser state: remaining tokens plus the log of reported (non-fatal)
errors. -/
structure PState where
  toks : List Tok
  errs : List String
deriving DecidableEq

/-- Operators of each binary/logical precedence level, low levels binding
tighter: 1 = factor, 2 = term, 3 = comparison, 4 = equality, 5 = `and`,
6 = `or`. -/
def lvlOpsN : Nat → List Tok
  | 1 => [.SLASH, .STAR]
  | 2 => [.MINUS, .PLUS]
  | 3 => [.GT, .GE, .LT, .LE]
  | 4 => [.BANGEQ, .EQEQ]
  | 5 => [.KAND]
  | 6 => [.KOR]
  | _ => []

/-- Levels 5 (`and`) and 6 (`or`) build `logical` nodes; the others build
`binary` nodes. -/
def lvlIsLogical (lv : Nat) : Bool := lv == 5 || lv == 6

/-- Build the AST node for one binary/logical application at level `lv`. -/
def mkLevelNode (lv : Nat) (l : PExpr) (t : Tok) (r : PExpr) : PExpr :=
  if lvlIsLogical lv then .logical l t r else .binary l t r

/-- The message reported when an assignment target is neither a variable
nor a property access. -/
def invalidTargetMsg : String := "invalid assignment target"

/-- The message reported when a call has more than 255 arguments. -/
def tooManyArgsMsg : String := "cannot have more than 255 arguments"

/-- The message reported when a declaration has more than 255 parameters. -/
def tooManyParamsMsg : String := "cannot have more than 255 parameters"

mutual
/-- `primary`: literals, `this`, identifiers, `super . IDENTIFIER`
(a bare `super` is a syntax error), and parenthesised expressions. -/
def parsePrimary : Nat → PState → Option (PExpr × PState)
  | 0, _ => none
  | fuel+1, st =>
      match st.toks with
      | .NUM n :: r => some (.lit (.num n), ⟨r, st.errs⟩)
      | .STR s :: r => some (.lit (.str s), ⟨r, st.errs⟩)
      | .KTRUE :: r => some (.lit (.bool true), ⟨r, st.errs⟩)
      | .KFALSE :: r => some (.lit (.bool false), ⟨r, st.errs⟩)
      | .KNIL :: r => some (.lit .nil, ⟨r, st.errs⟩)
      | .KTHIS :: r => some (.thisE, ⟨r, st.errs⟩)
      | .IDENT x :: r => some (.varE x, ⟨r, st.errs⟩)
      | .KSUPER :: .DOT :: .IDENT m :: r => some (.superE m, ⟨r, st.errs⟩)
      | .LPAREN :: r =>
          match parseExpression fuel ⟨r, st.errs⟩ with
          | some (e, st2) =>
              match st2.toks with
              | .RPAREN :: r2 => some (.grouping e, ⟨r2, st2.errs⟩)
              | _ => none
          | none => none
      | _ => none

/-- `call`: a primary followed by any interleaving of `(arguments)` and
`.name`. -/
def parseCall : Nat → PState → Option (PExpr × PState)
  | 0, _ => none
  | fuel+1, st =>
      match parsePrimary fuel st with
      | none => none
      | some (e, st2) => parseCallLoop fuel e st2

/-- The iteration of `call`: fold calls and property accesses onto the
callee, left-associatively.  A call with more than 255 arguments reports an
error but parsing continues. -/
def parseCallLoop : Nat → PExpr → PState → Option (PExpr × PState)
  | 0, _, _ => none
  | fuel+1, e, st =>
      match st.toks with
      | .LPAREN :: .RPAREN :: r2 => parseCallLoop fuel (.call e .nilA) ⟨r2, st.errs⟩
      | .LPAREN :: r =>
          match parseArguments fuel ⟨r, st.errs⟩ with
          | none => none
          | some (args, st2) =>
              match st2.toks with
              | .RPAREN :: r2 =>
                  parseCallLoop fuel (.call e (PArgs.ofList args))
                    ⟨r2, if 255 < args.length then st2.errs ++ [tooManyArgsMsg] else st2.errs⟩
              | _ => none
      | .DOT :: .IDENT m :: r => parseCallLoop fuel (.get e m) ⟨r, st.errs⟩
      | _ => some (e, st)

/-- `arguments`: one expression, then `, expression` repeatedly. -/
def parseArguments : Nat → PState → Option (List PExpr × PState)
  | 0, _ => none
  | fuel+1, st =>
      match parseExpression fuel st with
      | none => none
      | some (e, st2) => parseArgsLoop fuel [e] st2

/-- The iteration of `arguments`. -/
def parseArgsLoop : Nat → List PExpr → PState → Option (List PExpr × PState)
  | 0, _, _ => none
  | fuel+1, acc, st =>
      match st.toks with
      | .COMMA :: r =>
          match parseExpression fuel ⟨r, st.errs⟩ with
          | none => none
          | some (e, st2) => parseArgsLoop fuel (acc ++ [e]) st2
      | _ => some (acc, st)

/-- `unary_expr`: prefix `!` and `-`, right-associative, else `call`. -/
def parseUnary : Nat → PState → Option (PExpr × PState)
  | 0, _ => none
  | fuel+1, st =>
      match st.toks with
      | .BANG :: r =>
          match parseUnary fuel ⟨r, st.errs⟩ with
          | none => none
          | some (e, st2) => some (.unary .BANG e, st2)
      | .MINUS :: r =>
          match parseUnary fuel ⟨r, st.errs⟩ with
          | none => none
          | some (e, st2) => some (.unary .MINUS e, st2)
      | _ => parseCall fuel st

/-- The binary/logical precedence chain; level 0 is `unary_expr`. -/
def parseBin : Nat → Nat → PState → Option (PExpr × PState)
  | 0, _, _ => none
  | fuel+1, 0, st => parseUnary fuel st
  | fuel+1, lv+1, st =>
      match parseBin fuel lv st with
      | none => none
      | some (e, st2) => parseBinLoop fuel (lv+1) e st2

/-- The iteration of one binary/logical level: fold further operands onto
the left operand, left-associatively. -/
def parseBinLoop : Nat → Nat → PExpr → PState → Option (PExpr × PState)
  | 0, _, _, _ => none
  | fuel+1, lv, e, st =>
      match st.toks with
      | t :: r =>
          if (lvlOpsN lv).contains t then
            match parseBin fuel (lv - 1) ⟨r, st.errs⟩ with
            | none => none
            | some (rhs, st2) => parseBinLoop fuel lv (mkLevelNode lv e t rhs) st2
          else some (e, st)
      | [] => some (e, st)

/-- `assignment`: parse the left side as an expression; when `=` follows,
convert a variable target into an `assignE` node and a property access
target into a `set` node (parsing the value recursively, so assignment is
right-associative).  Any other target reports the invalid-assignment-target
error without consuming the `=`, and parsing continues. -/
def parseAssignment : Nat → PState → Option (PExpr × PState)
  | 0, _ => none
  | fuel+1, st =>
      match parseBin fuel 6 st with
      | none => none
      | some (e, st2) =>
          match st2.toks with
          | .EQ :: r =>
              match e with
              | .varE x =>
                  match parseAssignment fuel ⟨r, st2.errs⟩ with
                  | none => none
                  | some (v, st3) => some (.assignE x v, st3)
              | .get o m =>
                  match parseAssignment fuel ⟨r, st2.errs⟩ with
                  | none => none
                  | some (v, st3) => some (.set o m v, st3)
              | _ => some (e, ⟨st2.toks, st2.errs ++ [invalidTargetMsg]⟩)
          | _ => some (e, st2)

/-- `expression` is `assignment`. -/
def parseExpression : Nat → PState → Option (PExpr × PState)
  | 0, _ => none
  | fuel+1, st => parseAssignment fuel st
end

/-- A token stream of `k` further call arguments (each the literal `0`),
closed by the closing parenthesis and followed by `r`. -/
def argsTile : Nat → List Tok → List Tok
  | 0, r => .RPAREN :: r
  | k+1, r => .COMMA :: .NUM 0 :: argsTile k r

/-- A token stream of `k` further parameters (each named `p`), closed by
the closing parenthesis and followed by `r`. -/
def paramsTile : Nat → List Tok → List Tok
  | 0, r => .RPAREN :: r
  | k+1, r => .COMMA :: .IDENT "p" :: paramsTile k r

/-- Token sequences after `super` that do not have the shape
`.` IDENTIFIER. -/
def superBad : List Tok → Bool
  | .DOT :: .IDENT _ :: _ => false
  | _ => true

/-- The iteration of the grammar's `parameters` rule: `, IDENTIFIER`
repeatedly. -/
def parseParamsLoop : Nat → List String → PState → Option (List String × PState)
  | 0, _, _ => none
  | fuel+1, acc, st =>
      match st.toks with
      | .COMMA :: .IDENT x :: r => parseParamsLoop fuel (acc ++ [x]) ⟨r, st.errs⟩
      | _ => some (acc, st)

/-- The parenthesised parameter list of a function or method declaration.
More than 255 parameters reports an error but parsing continues. -/
def parseFunParams : Nat → PState → Option (List String × PState)
  | 0, _ => none
  | fuel+1, st =>
      match st.toks with
      | .LPAREN :: .RPAREN :: r => some ([], ⟨r, st.errs⟩)
      | .LPAREN :: .IDENT x :: r =>
          match parseParamsLoop fuel [x] ⟨r, st.errs⟩ with
          | none => none
          | some (ps, st2) =>
              match st2.toks with
              | .RPAREN :: r2 =>
                  some (ps, ⟨r2,
                    if 255 < ps.length then st2.errs ++ [tooManyParamsMsg] else st2.errs⟩)
              | _ => none
      | _ => none

/-! ## Streams and folds for the precedence/associativity claim -/

/-- All binary and logical operators, with their precedence levels below. -/
def allBinOps : List Tok :=
  [.KOR, .KAND, .BANGEQ, .EQEQ, .GT, .GE, .LT, .LE, .MINUS, .PLUS, .STAR, .SLASH]

/-- The spec's precedence table, low to high: `or`, `and`, equality,
comparison, term, factor. -/
def opPrec : Tok → Nat
  | .KOR => 1
  | .KAND => 2
  | .BANGEQ | .EQEQ => 3
  | .GT | .GE | .LT | .LE => 4
  | .MINUS | .PLUS => 5
  | .STAR | .SLASH => 6
  | _ => 0

/-- The parser level handling each operator (level 6 parses `or`, level 1
parses factors). -/
def opLvl : Tok → Nat
  | .KOR => 6
  | .KAND => 5
  | .BANGEQ | .EQEQ => 4
  | .GT | .GE | .LT | .LE => 3
  | .MINUS | .PLUS => 2
  | .STAR | .SLASH => 1
  | _ => 0

/-- The AST node an operator application should build: a logical node for
`and`/`or`, a binary node otherwise. -/
def opNode (o : Tok) (l r : PExpr) : PExpr :=
  if o = .KAND ∨ o = .KOR then .logical l o r else .binary l o r

/-- The tree `a o1 b o2 c` must parse to: grouped right when `o2` binds
tighter, grouped left otherwise (equal precedence associates left). -/
def precExpected (o1 o2 : Tok) : PExpr :=
  if opPrec o1 < opPrec o2 then opNode o1 (.varE "a") (opNode o2 (.varE "b") (.varE "c"))
  else opNode o2 (opNode o1 (.varE "a") (.varE "b")) (.varE "c")

/-- A chain of further `o`-applications: `o x1 o x2 ...`. -/
def chainT (o : Tok) : List String → List Tok
  | [] => []
  | y :: t => o :: .IDENT y :: chainT o t

/-- The left-associative fold the chain must parse to. -/
def chainFold (o : Tok) (e : PExpr) : List String → PExpr
  | [] => e
  | y :: t => chainFold o (opNode o e (.varE y)) t

/-- A right-nested assignment chain `x = y1 = y2 = ...`. -/
def assignToks (x : String) : List String → List Tok
  | [] => [.IDENT x]
  | y :: t => .IDENT x :: .EQ :: assignToks y t

/-- The right-associative nesting the assignment chain must parse to. -/
def assignFold (x : String) : List String → PExpr
  | [] => .varE x
  | y :: t => .assignE x (assignFold y t)

/-- `k` nested prefix `!` applications. -/
def unaryNest : Nat → PExpr → PExpr
  | 0, e => e
  | k+1, e => .unary .BANG (unaryNest k e)

/-- One postfix segment of a call expression: an (empty) argument list or a
property access. -/
inductive CallSeg where
  | argsS
  | dotS (m : String)

/-- The token stream of a sequence of postfix segments. -/
def segToks : List CallSeg → List Tok
  | [] => []
  | .argsS :: t => .LPAREN :: .RPAREN :: segToks t
  | .dotS m :: t => .DOT :: .IDENT m :: segToks t

/-- The left-associative fold of postfix segments onto a callee. -/
def segFold (e : PExpr) : List CallSeg → PExpr
  | [] => e
  | .argsS :: t => segFold (.call e .nilA) t
  | .dotS m :: t => segFold (.get e m) t

/-! ## List helpers -/

theorem takeLenAppend {α : Type} : ∀ (l₁ l₂ : List α) (m : Nat),
    (l₁ ++ l₂).take (l₁.length + m) = l₁ ++ l₂.take m := by
  intro l₁
  induction l₁ with
  | nil => simp
  | cons a t ih =>
      intro l₂ m
      have h1 : (a :: t).length + m = (t.length + m) + 1 := by
        simp only [List.length_cons]; omega
      rw [List.cons_append, h1, List.take_succ_cons, ih]
      rfl

theorem dropLenAppend {α : Type} : ∀ (l₁ l₂ : List α) (m : Nat),
    (l₁ ++ l₂).drop (l₁.length + m) = l₂.drop m := by
  intro l₁
  induction l₁ with
  | nil => simp
  | cons a t ih =>
      intro l₂ m
      have h1 : (a :: t).length + m = (t.length + m) + 1 := by
        simp only [List.length_cons]; omega
      rw [List.cons_append, h1, List.drop_succ_cons, ih]

theorem takeWhileTake {α : Type} (p : α → Bool) : ∀ l : List α,
    l.take (l.takeWhile p).length = l.takeWhile p := by
  intro l
  induction l with
  | nil => simp
  | cons a t ih =>
      by_cases h : p a
      · simp [List.takeWhile_cons, h, ih]
      · simp [List.takeWhile_cons, h]

theorem takeWhileDrop {α : Type} (p : α → Bool) : ∀ l : List α,
    l.drop (l.takeWhile p).length = l.dropWhile p := by
  intro l
  induction l with
  | nil => simp
  | cons a t ih =>
      by_cases h : p a
      · simp [List.takeWhile_cons, List.dropWhile_cons, h, ih]
      · simp [List.takeWhile_cons, List.dropWhile_cons, h]

theorem takeWhileAll {α : Type} (p : α → Bool) : ∀ l : List α,
    (l.takeWhile p).all p = true := by
  intro l
  induction l with
  | nil => simp
  | cons a t ih =>
      by_cases h : p a
      · simp [List.takeWhile_cons, h, ih]
      · simp [List.takeWhile_cons, h]

theorem dropWhileHead {α : Type} (p : α → Bool) : ∀ l : List α,
    l.dropWhile p = [] ∨ ∃ c u, l.dropWhile p = c :: u ∧ p c = false := by
  intro l
  induction l with
  | nil => simp
  | cons a t ih =>
      by_cases h : p a
      · simpa [List.dropWhile_cons, h] using ih
      · right
        exact ⟨a, t, by simp [List.dropWhile_cons, h], by simp [h]⟩

theorem getLastAppendCons {α : Type} : ∀ (l₁ : List α) (a : α) (l₂ : List α),
    (l₁ ++ a :: l₂).getLast? = (a :: l₂).getLast? := by
  intro l₁
  induction l₁ with
  | nil => simp
  | cons b t ih =>
      intro a l₂
      have h : (b :: t) ++ a :: l₂ = b :: (t ++ a :: l₂) := rfl
      rw [h]
      cases hc : t ++ a :: l₂ with
      | nil => exact absurd hc (by simp)
      | cons c u => rw [List.getLast?_cons_cons, ← hc, ih]

theorem allLastNotDot : ∀ l : List Char,
    l.all Char.isDigit = true → l.getLast? ≠ some '.' := by
  intro l
  induction l with
  | nil => simp
  | cons a t ih =>
      intro h
      cases t with
      | nil =>
          simp only [List.all_cons, List.all_nil, Bool.and_eq_true] at h
          simp only [List.getLast?_singleton]
          intro he
          have ha : a = '.' := by simpa using he
          rw [ha] at h
          exact absurd h.1 (by decide)
      | cons b u =>
          rw [List.getLast?_cons_cons]
          exact ih (by simp only [List.all_cons, Bool.and_eq_true] at h ⊢; exact h.2)

/-! ## Lexical claims -/

/-- C2: the NUMBER terminal is one or more digits optionally followed by
`.` and one or more digits; a trailing `.` is never part of the number
token, and the input `123.` lexes as the number token `123` followed by a
`.` token. -/
theorem number_no_trailing_dot :
    (∀ (s : List Char) (k : Nat), numberMatchLen s = some k →
        (s.take k).getLast? ≠ some '.') ∧
    miniScan 4 ['1', '2', '3', '.'] = [.num ['1', '2', '3'], .dot] := by
  constructor
  · intro s k h
    simp only [numberMatchLen] at h
    split at h
    · exact absurd h (by simp)
    · rename_i hlen
      have hdall := takeWhileAll Char.isDigit s
      have htake := takeWhileTake Char.isDigit s
      split at h
      · rename_i t heq
        split at h
        · rename_i h2len
          have hk : k = (s.takeWhile Char.isDigit).length := by
            simpa using h.symm
          rw [hk, htake]
          exact allLastNotDot _ hdall
        · rename_i h2len
          have h2all := takeWhileAll Char.isDigit t
          have h2take := takeWhileTake Char.isDigit t
          have hk : k = (s.takeWhile Char.isDigit).length +
              (1 + (t.takeWhile Char.isDigit).length) := by
            simp only [Option.some.injEq] at h
            omega
          have hs : s = s.takeWhile Char.isDigit ++ '.' :: t := by
            conv_lhs => rw [← List.take_append_drop (s.takeWhile Char.isDigit).length s]
            rw [htake, heq]
          have h2 : ('.' :: t).take (1 + (t.takeWhile Char.isDigit).length) =
              '.' :: t.takeWhile Char.isDigit := by
            have h3 : 1 + (t.takeWhile Char.isDigit).length =
                (t.takeWhile Char.isDigit).length + 1 := by omega
            rw [h3, List.take_succ_cons, h2take]
          have h4 := congrArg
            (List.take ((s.takeWhile Char.isDigit).length +
              (1 + (t.takeWhile Char.isDigit).length))) hs
          rw [takeLenAppend, h2] at h4
          rw [hk, h4, getLastAppendCons]
          cases hd2 : t.takeWhile Char.isDigit with
          | nil => rw [hd2] at h2len; simp at h2len
          | cons c u =>
              rw [List.getLast?_cons_cons]
              exact allLastNotDot _ (by rw [← hd2]; exact h2all)
      · rename_i heq
        have hk : k = (s.takeWhile Char.isDigit).length := by simpa using h.symm
        rw [hk, htake]
        exact allLastNotDot _ hdall
  · rfl

/-- C2 witness: the concrete instance `123.`, whose number token `123` does
not end with a dot. -/
theorem number_no_trailing_dot_witness :
    (['1', '2', '3', '.'].take 3).getLast? ≠ some '.' :=
  number_no_trailing_dot.1 ['1', '2', '3', '.'] 3 (by decide)

/-- Characters that close terminate nothing inside a string: neither a
quote nor a backslash. -/
def plainChar (c : Char) : Bool := c != '"' && c != '\\'

theorem stringTailQuote (rest : List Char) : stringTail ('"' :: rest) = some 1 := by
  cases rest <;> rfl

theorem stringTailPlain (c d : Char) (r2 : List Char) (h1 : ¬ c = '"') (h2 : ¬ c = '\\') :
    stringTail (c :: d :: r2) = (stringTail (d :: r2)).map (· + 1) := by
  simp only [stringTail, if_neg h1, if_neg h2]

theorem stringTailPlainApp (c : Char) (l : List Char) (a : Char) (r : List Char)
    (h1 : ¬ c = '"') (h2 : ¬ c = '\\') :
    stringTail (c :: (l ++ a :: r)) = (stringTail (l ++ a :: r)).map (· + 1) := by
  cases l with
  | nil => exact stringTailPlain c a r h1 h2
  | cons e t2 => exact stringTailPlain c e (t2 ++ a :: r) h1 h2

theorem stringTailClean : ∀ (a rest : List Char), a.all plainChar = true →
    stringTail (a ++ '"' :: rest) = some (a.length + 1) := by
  intro a
  induction a with
  | nil => intro rest _; exact stringTailQuote rest
  | cons c t ih =>
      intro rest h
      simp only [List.all_cons, Bool.and_eq_true] at h
      obtain ⟨hc, h3⟩ := h
      have h1 : ¬ c = '"' ∧ ¬ c = '\\' := by
        constructor <;> (intro he; rw [he] at hc; exact absurd hc (by decide))
      show stringTail (c :: (t ++ '"' :: rest)) = some ((c :: t).length + 1)
      rw [stringTailPlainApp c t '"' rest h1.1 h1.2, ih rest h3]
      simp [List.length_cons]

theorem stringTailNoQuoteAux : ∀ (n : Nat) (s : List Char), s.length ≤ n →
    '"' ∉ s → stringTail s = none := by
  intro n
  induction n with
  | zero =>
      intro s hl _
      have : s = [] := List.eq_nil_of_length_eq_zero (Nat.le_zero.mp hl)
      rw [this]; rfl
  | succ n ih =>
      intro s hl hq
      cases s with
      | nil => rfl
      | cons c t =>
          simp only [List.mem_cons, not_or] at hq
          obtain ⟨hc, ht⟩ := hq
          have hc' : ¬ c = '"' := fun h => hc h.symm
          cases t with
          | nil => simp only [stringTail, if_neg hc']
          | cons d u =>
              simp only [stringTail, if_neg hc']
              have hd : ¬ d = '"' := by
                intro h
                exact absurd (by rw [h]; exact List.mem_cons_self _ _) ht
              have hut : '"' ∉ u := fun h => ht (List.mem_cons_of_mem _ h)
              by_cases hb : c = '\\'
              · rw [if_pos hb]
                by_cases hdb : d = '\\'
                · rw [if_pos (Or.inr hdb)]
                  have hlen : u.length ≤ n := by
                    simp only [List.length_cons] at hl; omega
                  rw [ih u hlen hut]
                  rfl
                · rw [if_neg (fun hor => hor.elim (fun h => hd h) (fun h => hdb h))]
                  have hlen : (d :: u).length ≤ n := by
                    simp only [List.length_cons] at hl ⊢; omega
                  rw [ih (d :: u) hlen ht]
                  rfl
              · rw [if_neg hb]
                have hlen : (d :: u).length ≤ n := by
                  simp only [List.length_cons] at hl ⊢; omega
                rw [ih (d :: u) hlen ht]
                rfl

theorem stringTailEsc : ∀ (a : List Char) (d : Char) (rest : List Char),
    a.all plainChar = true → (d = '"' ∨ d = '\\') →
    stringTail (a ++ '\\' :: d :: rest) = (stringTail rest).map (· + (a.length + 2)) := by
  intro a
  induction a with
  | nil =>
      intro d rest _ hd
      show stringTail ('\\' :: d :: rest) = _
      simp only [stringTail, if_neg (by decide : ¬ '\\' = '"'), if_pos rfl, if_pos hd]
      simp
  | cons c t ih =>
      intro d rest h hd
      simp only [List.all_cons, Bool.and_eq_true] at h
      obtain ⟨hc, h3⟩ := h
      have h1 : ¬ c = '"' ∧ ¬ c = '\\' := by
        constructor <;> (intro he; rw [he] at hc; exact absurd hc (by decide))
      show stringTail (c :: (t ++ '\\' :: d :: rest)) = _
      rw [stringTailPlainApp c t '\\' (d :: rest) h1.1 h1.2, ih d rest h3 hd]
      cases stringTail rest with
      | none => rfl
      | some x => simp [List.length_cons]; omega

/-- C4: string literals are double-quoted and may span multiple lines, the
only escape sequences are the escaped quote and the escaped backslash, and
a string unterminated at end of input is a lexical error. -/
theorem string_literal_lexing :
    (∀ a : List Char, a.all plainChar = true →
        stringMatchLen ('"' :: (a ++ ['"'])) = some (a.length + 2)) ∧
    stringMatchLen ('"' :: 'x' :: '\n' :: 'y' :: ['"']) = some 5 ∧
    (∀ a b : List Char, a.all plainChar = true → b.all plainChar = true →
        stringMatchLen ('"' :: (a ++ '\\' :: '"' :: (b ++ ['"']))) =
          some (a.length + b.length + 4) ∧
        stringMatchLen ('"' :: (a ++ '\\' :: '\\' :: (b ++ ['"']))) =
          some (a.length + b.length + 4)) ∧
    (∀ s : List Char, '"' ∉ s → stringMatchLen ('"' :: s) = none) := by
  have hml : ∀ x : List Char, stringMatchLen ('"' :: x) = (stringTail x).map (· + 1) :=
    fun x => rfl
  refine ⟨?_, by decide, ?_, ?_⟩
  · intro a ha
    rw [hml, stringTailClean a [] ha]
    simp
  · intro a b ha hb
    constructor
    · rw [hml, stringTailEsc a '"' (b ++ ['"']) ha (Or.inl rfl),
        stringTailClean b [] hb]
      simp; omega
    · rw [hml, stringTailEsc a '\\' (b ++ ['"']) ha (Or.inr rfl),
        stringTailClean b [] hb]
      simp; omega
  · intro s hs
    rw [hml, stringTailNoQuoteAux s.length s (Nat.le_refl _) hs]
    rfl

/-- C4 witness: a concrete multi-line string literal. -/
theorem string_literal_lexing_witness :
    stringMatchLen ('"' :: (['a', '\n', 'b'] ++ ['"'])) = some 5 :=
  string_literal_lexing.1 ['a', '\n', 'b'] (by decide)

/-- C5 counterexample: on the input of a space, `//` and `x`, the COMMENT
terminal matches all four characters, so the characters the lexer discards
for this comment do not start at the `//`: the match also contains the
leading space. -/
theorem comment_claim_counterexample :
    commentMatchLen [' ', '/', '/', 'x'] = some 4 ∧
    ¬ ([' ', '/', '/', 'x'].take 4).take 2 = ['/', '/'] := by
  exact ⟨by decide, by decide⟩

/-- C5 (amended): the text matched by the COMMENT terminal is optional
whitespace, then `//`, then exactly the characters up to but not including
the terminating newline: no character after the `//` is a newline, and the
first unconsumed character, when the input does not end at the comment, is
the terminating newline itself. -/
theorem comment_match_shape (s : List Char) (k : Nat)
    (h : commentMatchLen s = some k) :
    ∃ w t, s.take k = w ++ '/' :: '/' :: t ∧ w.all isWS = true ∧
      t.all (fun c => c != '\n') = true ∧
      (s.drop k = [] ∨ ∃ u, s.drop k = '\n' :: u) := by
  simp only [commentMatchLen] at h
  split at h
  · rename_i t heq
    have htake := takeWhileTake isWS s
    have hk : k = (s.takeWhile isWS).length +
        (((t.takeWhile (fun c => c != '\n')).length + 1) + 1) := by
      simp only [Option.some.injEq] at h
      omega
    have hs : s = s.takeWhile isWS ++ '/' :: '/' :: t := by
      conv_lhs => rw [← List.take_append_drop (s.takeWhile isWS).length s]
      rw [htake, heq]
    refine ⟨s.takeWhile isWS, t.takeWhile (fun c => c != '\n'), ?_,
      takeWhileAll _ _, takeWhileAll _ _, ?_⟩
    · have h4 := congrArg (List.take ((s.takeWhile isWS).length +
        (2 + (t.takeWhile (fun c => c != '\n')).length))) hs
      rw [takeLenAppend] at h4
      rw [show 2 + (t.takeWhile (fun c => c != '\n')).length =
          ((t.takeWhile (fun c => c != '\n')).length + 1) + 1 from by omega,
        List.take_succ_cons, List.take_succ_cons, takeWhileTake] at h4
      rw [hk, h4]
    · have h5 := congrArg (List.drop ((s.takeWhile isWS).length +
        (2 + (t.takeWhile (fun c => c != '\n')).length))) hs
      rw [dropLenAppend] at h5
      rw [show 2 + (t.takeWhile (fun c => c != '\n')).length =
          ((t.takeWhile (fun c => c != '\n')).length + 1) + 1 from by omega,
        List.drop_succ_cons, List.drop_succ_cons, takeWhileDrop] at h5
      rw [hk, h5]
      rcases dropWhileHead (fun c => c != '\n') t with h6 | ⟨c, u, h6, h7⟩
      · exact Or.inl h6
      · right
        refine ⟨u, ?_⟩
        have hc : c = '\n' := by simpa using h7
        rw [h6, hc]
  · exact absurd h (by simp)

/-- C5 witness: a comment starting directly with `//`, stopped before the
newline. -/
theorem comment_match_shape_witness :
    ∃ w t, (['/', '/', 'a', '\n', 'b'].take 3) = w ++ '/' :: '/' :: t ∧
      w.all isWS = true ∧ t.all (fun c => c != '\n') = true ∧
      ((['/', '/', 'a', '\n', 'b'].drop 3) = [] ∨
        ∃ u, (['/', '/', 'a', '\n', 'b'].drop 3) = '\n' :: u) :=
  comment_match_shape ['/', '/', 'a', '\n', 'b'] 3 (by decide)

/-! ## The C driver claim -/

theorem compileLoopShift : ∀ (fuel : Nat) (toks : Nat → CToken) (i : Nat) (p : Int),
    compileLoop toks fuel (i+1) p = compileLoop (fun j => toks (j+1)) fuel i p := by
  intro fuel
  induction fuel with
  | zero => intro toks i p; rfl
  | succ fuel ih =>
      intro toks i p
      simp only [compileLoop]
      rw [ih]

theorem compileLoopRun : ∀ (n : Nat) (toks : Nat → CToken) (prev : Int) (fuel : Nat),
    (toks n).type = TOKEN_EOF → (∀ i, i < n → (toks i).type ≠ TOKEN_EOF) →
    n + 1 ≤ fuel → compileLoop toks fuel 0 prev = some (outLines toks n prev) := by
  intro n
  induction n with
  | zero =>
      intro toks prev fuel hEof _ hf
      obtain ⟨f, rfl⟩ : ∃ f, fuel = f + 1 := ⟨fuel - 1, by omega⟩
      simp only [compileLoop, outLines, if_pos hEof]
  | succ n ih =>
      intro toks prev fuel hEof hne hf
      obtain ⟨f, rfl⟩ : ∃ f, fuel = f + 1 := ⟨fuel - 1, by omega⟩
      have h0 : (toks 0).type ≠ TOKEN_EOF := hne 0 (Nat.succ_pos n)
      simp only [compileLoop, if_neg h0]
      rw [compileLoopShift]
      rw [ih (fun j => toks (j+1)) (toks 0).line f hEof
        (fun i hi => hne (i+1) (by omega)) (by omega)]
      rfl

theorem outLinesLen : ∀ (n : Nat) (toks : Nat → CToken) (prev : Int),
    (outLines toks n prev).length = n + 1 := by
  intro n
  induction n with
  | zero => intro toks prev; rfl
  | succ n ih => intro toks prev; simp only [outLines, List.length_cons, ih]

theorem outLinesGet : ∀ (n : Nat) (toks : Nat → CToken) (prev : Int) (i : Nat), i ≤ n →
    (outLines toks n prev).get? i =
      some (tokenLine (if i = 0 then prev else (toks (i-1)).line) (toks i)) := by
  intro n
  induction n with
  | zero =>
      intro toks prev i hi
      have h0 : i = 0 := Nat.le_zero.mp hi
      subst h0
      rfl
  | succ n ih =>
      intro toks prev i hi
      cases i with
      | zero => rfl
      | succ i =>
          have h1 : (outLines toks (n+1) prev).get? (i+1) =
              (outLines (fun j => toks (j+1)) n (toks 0).line).get? i := rfl
          rw [h1, ih (fun j => toks (j+1)) (toks 0).line i (by omega)]
          cases i with
          | zero => rfl
          | succ i => rfl

theorem tokenLineSpec (prev : Int) (t : CToken) :
    tokenLine prev t = specTokenLine (t.line != prev) t := by
  by_cases h : t.line = prev
  · simp [tokenLine, specTokenLine, h]
  · simp [tokenLine, specTokenLine, h]

/-- C10: for every scanner stream whose `n`-th token is the first of type
TOKEN_EOF, `compile` terminates within `n+1` iterations, printing exactly
the tokens up to and including that EOF, one line per token, and a line is
prefixed by the token's line number exactly when that line differs from the
previously printed token's line; the first token (its line being at least 1,
while the `line` variable starts at `-1`) always shows its line number. -/
theorem compile_prints_tokens (toks : Nat → CToken) (n : Nat)
    (hEof : (toks n).type = TOKEN_EOF)
    (hne : ∀ i, i < n → (toks i).type ≠ TOKEN_EOF)
    (hpos : ∀ i, i ≤ n → 1 ≤ (toks i).line) :
    ∃ out : List String,
      (∀ fuel, n + 1 ≤ fuel → compile toks fuel = some out) ∧
      out.length = n + 1 ∧
      ∀ i, i ≤ n → out.get? i =
        some (specTokenLine ((i == 0) || (toks i).line != (toks (i-1)).line) (toks i)) := by
  refine ⟨outLines toks n (-1), ?_, outLinesLen n toks (-1), ?_⟩
  · intro fuel hf
    exact compileLoopRun n toks (-1) fuel hEof hne hf
  · intro i hi
    rw [outLinesGet n toks (-1) i hi, tokenLineSpec]
    by_cases h0 : i = 0
    · subst h0
      have hp := hpos 0 (Nat.zero_le n)
      have hb : ((toks 0).line != (-1 : Int)) = true := by
        simp only [bne_iff_ne, ne_eq]
        omega
      simp [hb]
    · have hb : (i == 0) = false := by simpa using h0
      simp [h0, hb]

/-- C10 witness: a concrete two-token stream, checked by applying the
theorem at it. -/
theorem compile_prints_tokens_witness :
    ∃ out : List String,
      (∀ fuel, 1 + 1 ≤ fuel → compile demoToks fuel = some out) ∧
      out.length = 1 + 1 ∧
      ∀ i, i ≤ 1 → out.get? i =
        some (specTokenLine ((i == 0) || (demoToks i).line != (demoToks (i-1)).line)
          (demoToks i)) :=
  compile_prints_tokens demoToks 1 (by decide) (by decide) (by decide)

/-! ## Parser claims: super, assignment targets, logical vs binary -/

/-- C7: the keyword `super` is accepted only in the form
`super` `.` IDENTIFIER, producing a super node; a `super` not followed by
`.` IDENTIFIER is a syntax error. -/
theorem super_requires_dot_identifier :
    (∀ (fuel : Nat) (m : String) (r : List Tok) (errs : List String),
      parsePrimary (fuel+1) ⟨.KSUPER :: .DOT :: .IDENT m :: r, errs⟩ =
        some (.superE m, ⟨r, errs⟩)) ∧
    (∀ (fuel : Nat) (r : List Tok) (errs : List String),
      superBad r = true → parsePrimary fuel ⟨.KSUPER :: r, errs⟩ = none) := by
  constructor
  · intro fuel m r errs
    rfl
  · intro fuel r errs hbad
    cases fuel with
    | zero => rfl
    | succ fuel =>
        cases r with
        | nil => rfl
        | cons t1 r1 =>
            cases t1 <;>
              first
              | rfl
              | (cases r1 with
                 | nil => rfl
                 | cons t2 r2 =>
                     cases t2 <;>
                       first
                       | rfl
                       | exact absurd hbad (by simp [superBad]))

/-- C7 witness: a bare `super` at end of input is rejected. -/
theorem super_requires_dot_identifier_witness :
    parsePrimary 5 ⟨[Tok.KSUPER], []⟩ = none :=
  super_requires_dot_identifier.2 5 [] [] (by decide)

/-- C6: assignment is parsed by parsing the left side as an expression and,
when `=` follows, converting a variable node into an assign node and a
property-access node into a set node; any other left side followed by `=`
reports the invalid-assignment-target error without consuming the `=`, and
the parser still returns (parsing continues). -/
theorem assignment_target_conversion :
    (∀ (fuel : Nat) (x y : String) (errs : List String),
      parseAssignment (fuel+13) ⟨[.IDENT x, .EQ, .IDENT y], errs⟩ =
        some (.assignE x (.varE y), ⟨[], errs⟩)) ∧
    (∀ (fuel : Nat) (x m y : String) (errs : List String),
      parseAssignment (fuel+13) ⟨[.IDENT x, .DOT, .IDENT m, .EQ, .IDENT y], errs⟩ =
        some (.set (.varE x) m (.varE y), ⟨[], errs⟩)) ∧
    (∀ (fuel : Nat) (n : Int) (rest : List Tok) (errs : List String),
      parseAssignment (fuel+13) ⟨.NUM n :: .EQ :: rest, errs⟩ =
        some (.lit (.num n), ⟨.EQ :: rest, errs ++ [invalidTargetMsg]⟩)) := by
  refine ⟨?_, ?_, ?_⟩
  · intro fuel x y errs
    rfl
  · intro fuel x m y errs
    rfl
  · intro fuel n rest errs
    rfl

/-- C9: `and` and `or` produce logical nodes, the equality, comparison,
term and factor operators produce binary nodes, and the two variants are
distinct, never collapsed. -/
theorem logical_binary_distinct :
    (∀ (fuel : Nat) (x y : String) (errs : List String),
      parseExpression (fuel+14) ⟨[.IDENT x, .KAND, .IDENT y], errs⟩ =
        some (.logical (.varE x) .KAND (.varE y), ⟨[], errs⟩) ∧
      parseExpression (fuel+14) ⟨[.IDENT x, .KOR, .IDENT y], errs⟩ =
        some (.logical (.varE x) .KOR (.varE y), ⟨[], errs⟩)) ∧
    (∀ (fuel : Nat) (x y : String) (errs : List String) (o : Tok),
      o ∈ [Tok.BANGEQ, .EQEQ, .LT, .LE, .GT, .GE, .PLUS, .MINUS, .STAR, .SLASH] →
      parseExpression (fuel+14) ⟨[.IDENT x, o, .IDENT y], errs⟩ =
        some (.binary (.varE x) o (.varE y), ⟨[], errs⟩)) ∧
    (∀ (l : PExpr) (o : Tok) (r : PExpr) (l2 : PExpr) (o2 : Tok) (r2 : PExpr),
      PExpr.logical l o r ≠ PExpr.binary l2 o2 r2) := by
  refine ⟨?_, ?_, ?_⟩
  · intro fuel x y errs
    exact ⟨rfl, rfl⟩
  · intro fuel x y errs o ho
    fin_cases ho <;> rfl
  · intro l o r l2 o2 r2
    exact fun h => PExpr.noConfusion h

/-- C9 witness: an equality operator produces a binary node. -/
theorem logical_binary_distinct_witness :
    parseExpression 14 ⟨[.IDENT "a", .EQEQ, .IDENT "b"], []⟩ =
      some (.binary (.varE "a") .EQEQ (.varE "b"), ⟨[], []⟩) :=
  logical_binary_distinct.2.1 0 "a" "b" [] .EQEQ (by decide)

/-! ## The arity-limit claim -/

theorem atomNumStop : ∀ (G : Nat) (n : Int) (t : Tok) (r : List Tok) (errs : List String),
    t = .COMMA ∨ t = .RPAREN →
    parseExpression (G + 12) ⟨.NUM n :: t :: r, errs⟩ =
      some (.lit (.num n), ⟨t :: r, errs⟩) := by
  intro G n t r errs h
  rcases h with h | h <;> subst h <;> rfl

theorem argsTileShape : ∀ (k : Nat) (r : List Tok),
    ∃ t tail, argsTile k r = t :: tail ∧ (t = Tok.COMMA ∨ t = Tok.RPAREN) := by
  intro k r
  cases k with
  | zero => exact ⟨.RPAREN, r, rfl, Or.inr rfl⟩
  | succ k => exact ⟨.COMMA, .NUM 0 :: argsTile k r, rfl, Or.inl rfl⟩

theorem argsLoopRun : ∀ (k G : Nat) (acc : List PExpr) (r : List Tok) (errs : List String),
    parseArgsLoop (G + 12*k + 1) acc ⟨argsTile k r, errs⟩ =
      some (acc ++ List.replicate k (.lit (.num 0)), ⟨.RPAREN :: r, errs⟩) := by
  intro k
  induction k with
  | zero =>
      intro G acc r errs
      have h : parseArgsLoop (G + 12*0 + 1) acc ⟨argsTile 0 r, errs⟩ =
          some (acc, ⟨.RPAREN :: r, errs⟩) := rfl
      rw [h]
      simp
  | succ k ih =>
      intro G acc r errs
      obtain ⟨t, tail, hsh, hst⟩ := argsTileShape k r
      have hih := ih (G + 11) (acc ++ [.lit (.num 0)]) r errs
      have hf : (G + 11) + 12*k + 1 = G + 12*(k+1) := by ring
      rw [hf] at hih
      rcases hst with h | h <;> subst h
      · have hstep : parseArgsLoop (G + 12*(k+1) + 1) acc
            ⟨.COMMA :: .NUM 0 :: .COMMA :: tail, errs⟩ =
            parseArgsLoop (G + 12*(k+1)) (acc ++ [.lit (.num 0)]) ⟨.COMMA :: tail, errs⟩ := rfl
        show parseArgsLoop (G + 12*(k+1) + 1) acc
            ⟨.COMMA :: .NUM 0 :: argsTile k r, errs⟩ = _
        rw [hsh, hstep, ← hsh, hih]
        simp [List.replicate_succ]
      · have hstep : parseArgsLoop (G + 12*(k+1) + 1) acc
            ⟨.COMMA :: .NUM 0 :: .RPAREN :: tail, errs⟩ =
            parseArgsLoop (G + 12*(k+1)) (acc ++ [.lit (.num 0)]) ⟨.RPAREN :: tail, errs⟩ := rfl
        show parseArgsLoop (G + 12*(k+1) + 1) acc
            ⟨.COMMA :: .NUM 0 :: argsTile k r, errs⟩ = _
        rw [hsh, hstep, ← hsh, hih]
        simp [List.replicate_succ]

theorem paramsLoopRun : ∀ (k G : Nat) (acc : List String) (r : List Tok) (errs : List String),
    parseParamsLoop (G + k + 1) acc ⟨paramsTile k r, errs⟩ =
      some (acc ++ List.replicate k "p", ⟨.RPAREN :: r, errs⟩) := by
  intro k
  induction k with
  | zero =>
      intro G acc r errs
      have h : parseParamsLoop (G + 0 + 1) acc ⟨paramsTile 0 r, errs⟩ =
          some (acc, ⟨.RPAREN :: r, errs⟩) := rfl
      rw [h]
      simp
  | succ k ih =>
      intro G acc r errs
      have h : parseParamsLoop (G + (k+1) + 1) acc ⟨paramsTile (k+1) r, errs⟩ =
          parseParamsLoop (G + (k+1)) (acc ++ ["p"]) ⟨paramsTile k r, errs⟩ := rfl
      have hih := ih G (acc ++ ["p"]) r errs
      have hf : G + k + 1 = G + (k+1) := by ring
      rw [hf] at hih
      rw [h, hih]
      simp [List.replicate_succ]

/-- C3: a call accepts at most 255 arguments and a declaration at most 255
parameters: the parser accepts any count and still produces the call node
or the parameter list (the error is not fatal), and the error is reported
exactly when the count exceeds 255. -/
theorem arity_limit_255 :
    (∀ (k G : Nat) (f : String) (errs : List String),
      parseCallLoop (G + 12*k + 15) (.varE f) ⟨.LPAREN :: .NUM 0 :: argsTile k [], errs⟩ =
        some (.call (.varE f)
            (PArgs.ofList (.lit (.num 0) :: List.replicate k (.lit (.num 0)))),
          ⟨[], if 255 < k + 1 then errs ++ [tooManyArgsMsg] else errs⟩)) ∧
    (∀ (k G : Nat) (errs : List String),
      parseFunParams (G + k + 3) ⟨.LPAREN :: .IDENT "p" :: paramsTile k [], errs⟩ =
        some ("p" :: List.replicate k "p",
          ⟨[], if 255 < k + 1 then errs ++ [tooManyParamsMsg] else errs⟩)) := by
  constructor
  · intro k G f errs
    obtain ⟨t, tail, hsh, hst⟩ := argsTileShape k []
    have hloop := argsLoopRun k (G + 12) [.lit (.num 0)] [] errs
    have hf : (G + 12) + 12*k + 1 = G + 12*k + 13 := by ring
    rw [hf] at hloop
    have hlen : ([PExpr.lit (Value.num 0)] ++
        List.replicate k (PExpr.lit (Value.num 0))).length = k + 1 := by
      simp
    rcases hst with h | h <;> subst h
    · have hstep : parseCallLoop (G + 12*k + 15) (.varE f)
          ⟨.LPAREN :: .NUM 0 :: .COMMA :: tail, errs⟩ =
          (match parseArgsLoop (G + 12*k + 13) [.lit (.num 0)] ⟨.COMMA :: tail, errs⟩ with
           | none => none
           | some (args, st2) =>
              match st2.toks with
              | .RPAREN :: r2 =>
                  parseCallLoop (G + 12*k + 14) (.call (.varE f) (PArgs.ofList args))
                    ⟨r2, if 255 < args.length then st2.errs ++ [tooManyArgsMsg]
                      else st2.errs⟩
              | _ => none) := rfl
      rw [hsh]
      rw [hstep, ← hsh, hloop]
      show parseCallLoop (G + 12*k + 14)
          (PExpr.call (PExpr.varE f) (PArgs.ofList ([PExpr.lit (Value.num 0)] ++
            List.replicate k (PExpr.lit (Value.num 0)))))
          ⟨[], if 255 < ([PExpr.lit (Value.num 0)] ++
              List.replicate k (PExpr.lit (Value.num 0))).length
            then errs ++ [tooManyArgsMsg] else errs⟩ = _
      rw [hlen]
      rfl
    · have hstep : parseCallLoop (G + 12*k + 15) (.varE f)
          ⟨.LPAREN :: .NUM 0 :: .RPAREN :: tail, errs⟩ =
          (match parseArgsLoop (G + 12*k + 13) [.lit (.num 0)] ⟨.RPAREN :: tail, errs⟩ with
           | none => none
           | some (args, st2) =>
              match st2.toks with
              | .RPAREN :: r2 =>
                  parseCallLoop (G + 12*k + 14) (.call (.varE f) (PArgs.ofList args))
                    ⟨r2, if 255 < args.length then st2.errs ++ [tooManyArgsMsg]
                      else st2.errs⟩
              | _ => none) := rfl
      rw [hsh]
      rw [hstep, ← hsh, hloop]
      show parseCallLoop (G + 12*k + 14)
          (PExpr.call (PExpr.varE f) (PArgs.ofList ([PExpr.lit (Value.num 0)] ++
            List.replicate k (PExpr.lit (Value.num 0)))))
          ⟨[], if 255 < ([PExpr.lit (Value.num 0)] ++
              List.replicate k (PExpr.lit (Value.num 0))).length
            then errs ++ [tooManyArgsMsg] else errs⟩ = _
      rw [hlen]
      rfl
  · intro k G errs
    have hloop := paramsLoopRun k (G + 1) ["p"] [] errs
    have hf : (G + 1) + k + 1 = G + k + 2 := by ring
    rw [hf] at hloop
    have hstep : parseFunParams (G + k + 3) ⟨.LPAREN :: .IDENT "p" :: paramsTile k [], errs⟩ =
        (match parseParamsLoop (G + k + 2) ["p"] ⟨paramsTile k [], errs⟩ with
         | none => none
         | some (ps, st2) =>
            match st2.toks with
            | .RPAREN :: r2 =>
                some (ps, ⟨r2, if 255 < ps.length then st2.errs ++ [tooManyParamsMsg]
                  else st2.errs⟩)
            | _ => none) := rfl
    rw [hstep, hloop]
    have hlen : (["p"] ++ List.replicate k "p").length = k + 1 := by simp
    show some (["p"] ++ List.replicate k "p",
        (⟨[], if 255 < (["p"] ++ List.replicate k "p").length
          then errs ++ [tooManyParamsMsg] else errs⟩ : PState)) = _
    rw [hlen]
    rfl

/-! ## The precedence and associativity claim -/

theorem binChainStepMid : ∀ o, o ∈ allBinOps →
    ∀ (H : Nat) (e : PExpr) (y : String) (rest : List Tok) (errs : List String),
    parseBinLoop (H + 12) (opLvl o) e ⟨o :: .IDENT y :: o :: rest, errs⟩ =
      parseBinLoop (H + 11) (opLvl o) (opNode o e (.varE y)) ⟨o :: rest, errs⟩ := by
  intro o ho H e y rest errs
  fin_cases ho <;> rfl

theorem binChainStepEnd : ∀ o, o ∈ allBinOps →
    ∀ (H : Nat) (e : PExpr) (y : String) (errs : List String),
    parseBinLoop (H + 12) (opLvl o) e ⟨[o, .IDENT y], errs⟩ =
      some (opNode o e (.varE y), ⟨[], errs⟩) := by
  intro o ho H e y errs
  fin_cases ho <;> rfl

theorem binLoopChain : ∀ (xs : List String) (o : Tok), o ∈ allBinOps →
    ∀ (G : Nat) (e : PExpr) (errs : List String),
    parseBinLoop (G + 12*xs.length + 1) (opLvl o) e ⟨chainT o xs, errs⟩ =
      some (chainFold o e xs, ⟨[], errs⟩) := by
  intro xs
  induction xs with
  | nil => intro o ho G e errs; rfl
  | cons y t ih =>
      intro o ho G e errs
      cases t with
      | nil =>
          show parseBinLoop ((G + 1) + 12) (opLvl o) e ⟨[o, .IDENT y], errs⟩ =
            some (chainFold o e [y], ⟨[], errs⟩)
          rw [binChainStepEnd o ho (G + 1) e y errs]
          rfl
      | cons z t2 =>
          show parseBinLoop ((G + 12*t2.length + 13) + 12) (opLvl o) e
              ⟨o :: .IDENT y :: o :: .IDENT z :: chainT o t2, errs⟩ =
            some (chainFold o (opNode o e (.varE y)) (z :: t2), ⟨[], errs⟩)
          rw [binChainStepMid o ho (G + 12*t2.length + 13) e y
            (.IDENT z :: chainT o t2) errs]
          have hf : G + 12*t2.length + 13 + 11 = (G + 11) + 12*(z :: t2).length + 1 := by
            simp only [List.length_cons]
            ring
          rw [hf]
          exact ih o ho (G + 11) (opNode o e (.varE y)) errs

theorem assignStep : ∀ (H : Nat) (x : String) (rest : List Tok) (errs : List String),
    parseAssignment (H + 13) ⟨.IDENT x :: .EQ :: rest, errs⟩ =
      (match parseAssignment (H + 12) ⟨rest, errs⟩ with
       | none => none
       | some (v, st3) => some (.assignE x v, st3)) := by
  intro H x rest errs
  rfl

theorem assignChain : ∀ (ys : List String) (x : String) (G : Nat) (errs : List String),
    parseAssignment (G + ys.length + 12) ⟨assignToks x ys, errs⟩ =
      some (assignFold x ys, ⟨[], errs⟩) := by
  intro ys
  induction ys with
  | nil => intro x G errs; rfl
  | cons y t ih =>
      intro x G errs
      show parseAssignment ((G + t.length) + 13) ⟨.IDENT x :: .EQ :: assignToks y t, errs⟩ =
        some (.assignE x (assignFold y t), ⟨[], errs⟩)
      rw [assignStep (G + t.length) x (assignToks y t) errs, ih y G errs]

theorem unaryChain : ∀ (k G : Nat) (x : String) (errs : List String),
    parseUnary (G + k + 3) ⟨List.replicate k .BANG ++ [.IDENT x], errs⟩ =
      some (unaryNest k (.varE x), ⟨[], errs⟩) := by
  intro k
  induction k with
  | zero => intro G x errs; rfl
  | succ k ih =>
      intro G x errs
      have hstep : parseUnary (G + (k+1) + 3)
          ⟨.BANG :: (List.replicate k .BANG ++ [.IDENT x]), errs⟩ =
          (match parseUnary (G + k + 3) ⟨List.replicate k .BANG ++ [.IDENT x], errs⟩ with
           | none => none
           | some (e, st2) => some (.unary .BANG e, st2)) := rfl
      show parseUnary (G + (k+1) + 3)
          ⟨.BANG :: (List.replicate k .BANG ++ [.IDENT x]), errs⟩ =
        some (unaryNest (k+1) (.varE x), ⟨[], errs⟩)
      rw [hstep, ih G x errs]
      rfl

theorem callSegChain : ∀ (segs : List CallSeg) (G : Nat) (e : PExpr) (errs : List String),
    parseCallLoop (G + segs.length + 1) e ⟨segToks segs, errs⟩ =
      some (segFold e segs, ⟨[], errs⟩) := by
  intro segs
  induction segs with
  | nil => intro G e errs; rfl
  | cons sg t ih =>
      intro G e errs
      cases sg with
      | argsS =>
          show parseCallLoop ((G + t.length + 1) + 1) e
              ⟨Tok.LPAREN :: Tok.RPAREN :: segToks t, errs⟩ =
            some (segFold (PExpr.call e PArgs.nilA) t, (⟨[], errs⟩ : PState))
          have hstep : parseCallLoop ((G + t.length + 1) + 1) e
              ⟨Tok.LPAREN :: Tok.RPAREN :: segToks t, errs⟩ =
              parseCallLoop (G + t.length + 1) (PExpr.call e PArgs.nilA)
                ⟨segToks t, errs⟩ := rfl
          rw [hstep]
          exact ih G (PExpr.call e PArgs.nilA) errs
      | dotS m =>
          show parseCallLoop ((G + t.length + 1) + 1) e
              ⟨Tok.DOT :: Tok.IDENT m :: segToks t, errs⟩ =
            some (segFold (PExpr.get e m) t, (⟨[], errs⟩ : PState))
          have hstep : parseCallLoop ((G + t.length + 1) + 1) e
              ⟨Tok.DOT :: Tok.IDENT m :: segToks t, errs⟩ =
              parseCallLoop (G + t.length + 1) (PExpr.get e m)
                ⟨segToks t, errs⟩ := rfl
          rw [hstep]
          exact ih G (PExpr.get e m) errs

set_option maxRecDepth 10000 in
/-- C8: the parser implements the precedence order of the spec and its
associativities.  First component: for all pairs of binary/logical
operators, `a o1 b o2 c` groups right exactly when `o2` binds tighter,
left otherwise (so every binary and logical level associates to the left,
with the precedence chain assignment, `or`, `and`, equality, comparison,
term, factor).  Then: every level loop left-folds arbitrary-length chains;
assignment chains nest to the right; prefix unary operators nest to the
right; and call/property postfixes fold to the left, interleaved. -/
theorem precedence_associativity :
    ((allBinOps.all fun o1 => allBinOps.all fun o2 =>
        decide (parseExpression 20 ⟨[.IDENT "a", o1, .IDENT "b", o2, .IDENT "c"], []⟩ =
          some (precExpected o1 o2, ⟨[], []⟩))) = true) ∧
    (∀ (xs : List String) (o : Tok), o ∈ allBinOps →
      ∀ (G : Nat) (e : PExpr) (errs : List String),
      parseBinLoop (G + 12*xs.length + 1) (opLvl o) e ⟨chainT o xs, errs⟩ =
        some (chainFold o e xs, ⟨[], errs⟩)) ∧
    (∀ (ys : List String) (x : String) (G : Nat) (errs : List String),
      parseAssignment (G + ys.length + 12) ⟨assignToks x ys, errs⟩ =
        some (assignFold x ys, ⟨[], errs⟩)) ∧
    (∀ (k G : Nat) (x : String) (errs : List String),
      parseUnary (G + k + 3) ⟨List.replicate k .BANG ++ [.IDENT x], errs⟩ =
        some (unaryNest k (.varE x), ⟨[], errs⟩)) ∧
    (∀ (segs : List CallSeg) (G : Nat) (e : PExpr) (errs : List String),
      parseCallLoop (G + segs.length + 1) e ⟨segToks segs, errs⟩ =
        some (segFold e segs, ⟨[], errs⟩)) :=
  ⟨by decide, binLoopChain, assignChain, unaryChain, callSegChain⟩

/-- C8 witness: a `+`-chain of two further operands left-folds. -/
theorem precedence_associativity_witness :
    parseBinLoop (0 + 12*(["b", "c"] : List String).length + 1) (opLvl .PLUS) (.varE "a")
      ⟨chainT .PLUS ["b", "c"], []⟩ =
      some (chainFold .PLUS (.varE "a") ["b", "c"], ⟨[], []⟩) :=
  precedence_associativity.2.1 ["b", "c"] .PLUS (by decide) 0 (.varE "a") []

/-! ## Interpreter groundwork for the for-desugaring claim -/

theorem run_zero (w : Work) (σ : St) : run 0 w σ = none := rfl

theorem run_exprS (f : Nat) (g : Expr) (σ : St) :
    run (f+1) (.one (.exprS g)) σ = evalIn g σ (fun _ σ2 => some (.ok σ2)) := rfl

theorem run_printS (f : Nat) (g : Expr) (σ : St) :
    run (f+1) (.one (.printS g)) σ =
      evalIn g σ (fun v σ2 => some (.ok ⟨σ2.env, σ2.out ++ [render v]⟩)) := rfl

theorem run_varS (f : Nat) (x : String) (i : Option Expr) (σ : St) :
    run (f+1) (.one (.varS x i)) σ =
      evalIn (i.getD (.lit .nil)) σ
        (fun v σ2 => some (.ok ⟨envDefine σ2.env x v, σ2.out⟩)) := rfl

theorem run_block (f : Nat) (ss : List Stmt) (σ : St) :
    run (f+1) (.one (.block ss)) σ = popOk (run f (.many ss) (pushSt σ)) := rfl

theorem run_ifS (f : Nat) (c : Expr) (t : Stmt) (e : Option Stmt) (σ : St) :
    run (f+1) (.one (.ifS c t e)) σ =
      evalIn c σ (fun v σ2 =>
        if truthy v then run f (.one t) σ2
        else
          match e with
          | some s2 => run f (.one s2) σ2
          | none => some (.ok σ2)) := rfl

theorem run_whileS (f : Nat) (c : Expr) (b : Stmt) (σ : St) :
    run (f+1) (.one (.whileS c b)) σ =
      evalIn c σ (fun v σ2 =>
        if truthy v then
          andThen (run f (.one b) σ2) fun σ3 => run f (.one (.whileS c b)) σ3
        else some (.ok σ2)) := rfl

theorem run_forS_none (f : Nat) (c n : Option Expr) (b : Stmt) (σ : St) :
    run (f+1) (.one (.forS none c n b)) σ = run f (.loop c n b) σ := rfl

theorem run_forS_some (f : Nat) (i : Stmt) (c n : Option Expr) (b : Stmt) (σ : St) :
    run (f+1) (.one (.forS (some i) c n b)) σ =
      andThen (run f (.one i) (pushSt σ)) fun σ2 =>
        popOk (run f (.loop c n b) σ2) := rfl

theorem run_many_nil (f : Nat) (σ : St) : run (f+1) (.many []) σ = some (.ok σ) := rfl

theorem run_many_cons (f : Nat) (s : Stmt) (t : List Stmt) (σ : St) :
    run (f+1) (.many (s :: t)) σ =
      andThen (run f (.one s) σ) fun σ2 => run f (.many t) σ2 := rfl

theorem run_loop_none (f : Nat) (c : Option Expr) (b : Stmt) (σ : St) :
    run (f+1) (.loop c none b) σ =
      evalIn (condExpr c) σ (fun v σ2 =>
        if truthy v then
          andThen (run f (.one b) σ2) fun σ3 => run f (.loop c none b) σ3
        else some (.ok σ2)) := rfl

theorem run_loop_some (f : Nat) (c : Option Expr) (gI : Expr) (b : Stmt) (σ : St) :
    run (f+1) (.loop c (some gI) b) σ =
      evalIn (condExpr c) σ (fun v σ2 =>
        if truthy v then
          andThen (run f (.one b) σ2) fun σ3 =>
            evalIn gI σ3 fun _ σ4 => run f (.loop c (some gI) b) σ4
        else some (.ok σ2)) := rfl

theorem andThen_none (k : St → Option Res) : andThen none k = none := rfl

theorem andThen_err (o : List String) (k : St → Option Res) :
    andThen (some (.err o)) k = some (.err o) := rfl

theorem andThen_ok (σ : St) (k : St → Option Res) : andThen (some (.ok σ)) k = k σ := rfl

theorem popOk_none : popOk none = none := rfl

theorem popOk_err (o : List String) : popOk (some (.err o)) = some (.err o) := rfl

theorem popOk_ok (σ : St) :
    popOk (some (.ok σ)) = some (.ok ⟨popEnv σ.env, σ.out⟩) := rfl

theorem evalIn_eq_none (g : Expr) (σ : St) (kont : Value → St → Option Res)
    (h : eval g σ.env = none) : evalIn g σ kont = some (.err σ.out) := by
  unfold evalIn
  rw [h]

theorem evalIn_eq_some (g : Expr) (σ : St) (kont : Value → St → Option Res)
    (v : Value) (e2 : Env) (h : eval g σ.env = some (v, e2)) :
    evalIn g σ kont = kont v ⟨e2, σ.out⟩ := by
  unfold evalIn
  rw [h]

theorem runMono : ∀ (f : Nat) (w : Work) (σ : St) (r : Res), run f w σ = some r →
    ∀ f2, f ≤ f2 → run f2 w σ = some r := by
  intro f
  induction f with
  | zero => intro w σ r h; exact absurd h (by simp [run])
  | succ f ih =>
      intro w σ r h f2 hle
      obtain ⟨g, rfl⟩ : ∃ g, f2 = g + 1 := ⟨f2 - 1, by omega⟩
      have hg : f ≤ g := by omega
      cases w with
      | one s =>
          cases s with
          | exprS e => exact h
          | printS e => exact h
          | varS x i => exact h
          | block ss =>
              rw [run_block] at h ⊢
              cases hrec : run f (.many ss) (pushSt σ) with
              | none => rw [hrec, popOk_none] at h; exact absurd h (by simp)
              | some r2 =>
                  rw [ih _ _ _ hrec g hg]
                  rw [hrec] at h
                  exact h
          | ifS c t e =>
              rw [run_ifS] at h ⊢
              cases heval : eval c σ.env with
              | none => rw [evalIn_eq_none _ _ _ heval] at h ⊢; exact h
              | some p =>
                  obtain ⟨v, e2⟩ := p
                  rw [evalIn_eq_some _ _ _ _ _ heval] at h ⊢
                  by_cases hv : truthy v = true
                  · rw [if_pos hv] at h ⊢
                    exact ih _ _ _ h g hg
                  · rw [if_neg hv] at h ⊢
                    cases e with
                    | none => exact h
                    | some s2 => exact ih _ _ _ h g hg
          | whileS c b =>
              rw [run_whileS] at h ⊢
              cases heval : eval c σ.env with
              | none => rw [evalIn_eq_none _ _ _ heval] at h ⊢; exact h
              | some p =>
                  obtain ⟨v, e2⟩ := p
                  rw [evalIn_eq_some _ _ _ _ _ heval] at h ⊢
                  by_cases hv : truthy v = true
                  · rw [if_pos hv] at h ⊢
                    cases hb : run f (.one b) ⟨e2, σ.out⟩ with
                    | none => rw [hb, andThen_none] at h; exact absurd h (by simp)
                    | some rb =>
                        rw [ih _ _ _ hb g hg]
                        rw [hb] at h
                        cases rb with
                        | err o => rw [andThen_err] at h ⊢; exact h
                        | ok σ3 =>
                            rw [andThen_ok] at h ⊢
                            exact ih _ _ _ h g hg
                  · rw [if_neg hv] at h ⊢
                    exact h
          | forS fi c n b =>
              cases fi with
              | none =>
                  rw [run_forS_none] at h ⊢
                  exact ih _ _ _ h g hg
              | some i =>
                  rw [run_forS_some] at h ⊢
                  cases hi : run f (.one i) (pushSt σ) with
                  | none => rw [hi, andThen_none] at h; exact absurd h (by simp)
                  | some ri =>
                      rw [ih _ _ _ hi g hg]
                      rw [hi] at h
                      cases ri with
                      | err o => rw [andThen_err] at h ⊢; exact h
                      | ok σ2 =>
                          rw [andThen_ok] at h ⊢
                          cases hl : run f (.loop c n b) σ2 with
                          | none => rw [hl, popOk_none] at h; exact absurd h (by simp)
                          | some rl =>
                              rw [ih _ _ _ hl g hg]
                              rw [hl] at h
                              exact h
      | many ss =>
          cases ss with
          | nil => exact h
          | cons s t =>
              rw [run_many_cons] at h ⊢
              cases hs : run f (.one s) σ with
              | none => rw [hs, andThen_none] at h; exact absurd h (by simp)
              | some rs =>
                  rw [ih _ _ _ hs g hg]
                  rw [hs] at h
                  cases rs with
                  | err o => rw [andThen_err] at h ⊢; exact h
                  | ok σ2 =>
                      rw [andThen_ok] at h ⊢
                      exact ih _ _ _ h g hg
      | loop c n b =>
          cases n with
          | none =>
              rw [run_loop_none] at h ⊢
              cases heval : eval (condExpr c) σ.env with
              | none => rw [evalIn_eq_none _ _ _ heval] at h ⊢; exact h
              | some p =>
                  obtain ⟨v, e2⟩ := p
                  rw [evalIn_eq_some _ _ _ _ _ heval] at h ⊢
                  by_cases hv : truthy v = true
                  · rw [if_pos hv] at h ⊢
                    cases hb : run f (.one b) ⟨e2, σ.out⟩ with
                    | none => rw [hb, andThen_none] at h; exact absurd h (by simp)
                    | some rb =>
                        rw [ih _ _ _ hb g hg]
                        rw [hb] at h
                        cases rb with
                        | err o => rw [andThen_err] at h ⊢; exact h
                        | ok σ3 =>
                            rw [andThen_ok] at h ⊢
                            exact ih _ _ _ h g hg
                  · rw [if_neg hv] at h ⊢
                    exact h
          | some gI =>
              rw [run_loop_some] at h ⊢
              cases heval : eval (condExpr c) σ.env with
              | none => rw [evalIn_eq_none _ _ _ heval] at h ⊢; exact h
              | some p =>
                  obtain ⟨v, e2⟩ := p
                  rw [evalIn_eq_some _ _ _ _ _ heval] at h ⊢
                  by_cases hv : truthy v = true
                  · rw [if_pos hv] at h ⊢
                    cases hb : run f (.one b) ⟨e2, σ.out⟩ with
                    | none => rw [hb, andThen_none] at h; exact absurd h (by simp)
                    | some rb =>
                        rw [ih _ _ _ hb g hg]
                        rw [hb] at h
                        cases rb with
                        | err o => rw [andThen_err] at h ⊢; exact h
                        | ok σ3 =>
                            rw [andThen_ok] at h ⊢
                            cases hgI : eval gI σ3.env with
                            | none =>
                                rw [evalIn_eq_none _ _ _ hgI] at h ⊢
                                exact h
                            | some p2 =>
                                obtain ⟨v4, e4⟩ := p2
                                rw [evalIn_eq_some _ _ _ _ _ hgI] at h ⊢
                                exact ih _ _ _ h g hg
                  · rw [if_neg hv] at h ⊢
                    exact h

theorem listSetLen : ∀ (l : List Scope) (x : String) (v : Value) (l2 : List Scope),
    listSet l x v = some l2 → l2.length = l.length := by
  intro l
  induction l with
  | nil => intro x v l2 h; exact absurd h (by simp [listSet])
  | cons s t ih =>
      intro x v l2 h
      unfold listSet at h
      cases hs : scopeSet s x v with
      | some s2 =>
          rw [hs] at h
          simp only [Option.some.injEq] at h
          rw [← h]
          simp
      | none =>
          rw [hs] at h
          cases ht : listSet t x v with
          | none => rw [ht] at h; simp at h
          | some t2 =>
              rw [ht] at h
              have h2 : s :: t2 = l2 := by simpa using h
              rw [← h2]
              simp [ih x v t2 ht]

theorem envSetRest : ∀ (e : Env) (x : String) (v : Value) (e2 : Env),
    envSet e x v = some e2 → e2.rest.length = e.rest.length := by
  intro e x v e2 h
  unfold envSet at h
  cases hl : listSet e.toList x v with
  | none => rw [hl] at h; simp at h
  | some l2 =>
      rw [hl] at h
      cases l2 with
      | nil => simp at h
      | cons h2 r2 =>
          simp only [Option.some.injEq] at h
          have hlen := listSetLen e.toList x v (h2 :: r2) hl
          rw [← h]
          simp only [Env.toList, List.length_cons] at hlen ⊢
          omega

theorem evalRest : ∀ (g : Expr) (e : Env) (v : Value) (e2 : Env),
    eval g e = some (v, e2) → e2.rest.length = e.rest.length := by
  intro g
  induction g with
  | lit w =>
      intro e v e2 h
      simp only [eval, Option.some.injEq, Prod.mk.injEq] at h
      rw [← h.2]
  | var x =>
      intro e v e2 h
      simp only [eval] at h
      cases hg : envGet e x with
      | none => rw [hg] at h; simp at h
      | some w =>
          rw [hg] at h
          simp only [Option.some.injEq, Prod.mk.injEq] at h
          rw [← h.2]
  | assign x rhs ihr =>
      intro e v e2 h
      simp only [eval] at h
      cases hr : eval rhs e with
      | none => rw [hr] at h; simp at h
      | some p =>
          obtain ⟨w, e1⟩ := p
          rw [hr] at h
          cases hs : envSet e1 x w with
          | none => simp [hs] at h
          | some e3 =>
              simp only [hs, Option.some.injEq, Prod.mk.injEq] at h
              rw [← h.2]
              rw [envSetRest e1 x w e3 hs]
              exact ihr e w e1 hr
  | grouping g ihg =>
      intro e v e2 h
      exact ihg e v e2 h
  | unary op g ihg =>
      intro e v e2 h
      simp only [eval] at h
      cases hg : eval g e with
      | none => rw [hg] at h; simp at h
      | some p =>
          obtain ⟨w, e1⟩ := p
          rw [hg] at h
          cases hu : unaryOp op w with
          | none => simp [hu] at h
          | some rr =>
              simp only [hu, Option.some.injEq, Prod.mk.injEq] at h
              rw [← h.2]
              exact ihg e w e1 hg
  | binary op l r ihl ihr =>
      intro e v e2 h
      simp only [eval] at h
      cases hl : eval l e with
      | none => rw [hl] at h; simp at h
      | some p =>
          obtain ⟨a, e1⟩ := p
          rw [hl] at h
          simp only [] at h
          cases hr : eval r e1 with
          | none => rw [hr] at h; simp at h
          | some p2 =>
              obtain ⟨b, e3⟩ := p2
              rw [hr] at h
              simp only [] at h
              cases hb : binOp op a b with
              | none => simp [hb] at h
              | some w =>
                  simp only [hb, Option.some.injEq, Prod.mk.injEq] at h
                  rw [← h.2]
                  rw [ihr e1 b e3 hr]
                  exact ihl e a e1 hl
  | logical op l r ihl ihr =>
      intro e v e2 h
      simp only [eval] at h
      cases hl : eval l e with
      | none => rw [hl] at h; simp at h
      | some p =>
          obtain ⟨a, e1⟩ := p
          rw [hl] at h
          simp only [] at h
          have hfirst := ihl e a e1 hl
          cases op with
          | orOp =>
              simp only [] at h
              by_cases ht : truthy a = true
              · rw [if_pos ht] at h
                simp only [Option.some.injEq, Prod.mk.injEq] at h
                rw [← h.2]
                exact hfirst
              · rw [if_neg ht] at h
                rw [ihr e1 v e2 h]
                exact hfirst
          | andOp =>
              simp only [] at h
              by_cases ht : truthy a = true
              · rw [if_pos ht] at h
                rw [ihr e1 v e2 h]
                exact hfirst
              · rw [if_neg ht] at h
                simp only [Option.some.injEq, Prod.mk.injEq] at h
                rw [← h.2]
                exact hfirst

theorem runRestLen : ∀ (f : Nat) (w : Work) (σ σ2 : St),
    run f w σ = some (.ok σ2) → σ2.env.rest.length = σ.env.rest.length := by
  intro f
  induction f with
  | zero => intro w σ σ2 h; exact absurd h (by simp [run])
  | succ f ih =>
      intro w σ σ2 h
      cases w with
      | one s =>
          cases s with
          | exprS e =>
              rw [run_exprS] at h
              cases heval : eval e σ.env with
              | none => rw [evalIn_eq_none _ _ _ heval] at h; simp at h
              | some p =>
                  obtain ⟨v, e2⟩ := p
                  rw [evalIn_eq_some _ _ _ _ _ heval] at h
                  simp only [Option.some.injEq, Res.ok.injEq] at h
                  rw [← h]
                  exact evalRest e σ.env v e2 heval
          | printS e =>
              rw [run_printS] at h
              cases heval : eval e σ.env with
              | none => rw [evalIn_eq_none _ _ _ heval] at h; simp at h
              | some p =>
                  obtain ⟨v, e2⟩ := p
                  rw [evalIn_eq_some _ _ _ _ _ heval] at h
                  simp only [Option.some.injEq, Res.ok.injEq] at h
                  rw [← h]
                  exact evalRest e σ.env v e2 heval
          | varS x i =>
              rw [run_varS] at h
              cases heval : eval (i.getD (.lit .nil)) σ.env with
              | none => rw [evalIn_eq_none _ _ _ heval] at h; simp at h
              | some p =>
                  obtain ⟨v, e2⟩ := p
                  rw [evalIn_eq_some _ _ _ _ _ heval] at h
                  simp only [Option.some.injEq, Res.ok.injEq] at h
                  rw [← h]
                  exact evalRest _ σ.env v e2 heval
          | block ss =>
              rw [run_block] at h
              cases hrec : run f (.many ss) (pushSt σ) with
              | none => rw [hrec, popOk_none] at h; simp at h
              | some r2 =>
                  cases r2 with
                  | err o => rw [hrec, popOk_err] at h; simp at h
                  | ok σm =>
                      rw [hrec, popOk_ok] at h
                      simp only [Option.some.injEq, Res.ok.injEq] at h
                      have hm := ih _ _ _ hrec
                      simp only [pushSt] at hm
                      rw [← h]
                      simp only [popEnv]
                      cases hr2 : σm.env.rest with
                      | nil => rw [hr2] at hm; simp at hm
                      | cons a r3 =>
                          rw [hr2] at hm
                          simp only [List.length_cons] at hm ⊢
                          omega
          | ifS c t e =>
              rw [run_ifS] at h
              cases heval : eval c σ.env with
              | none => rw [evalIn_eq_none _ _ _ heval] at h; simp at h
              | some p =>
                  obtain ⟨v, e2⟩ := p
                  rw [evalIn_eq_some _ _ _ _ _ heval] at h
                  have he2 := evalRest c σ.env v e2 heval
                  by_cases hv : truthy v = true
                  · rw [if_pos hv] at h
                    have := ih _ _ _ h
                    simp only [] at this
                    omega
                  · rw [if_neg hv] at h
                    cases e with
                    | none =>
                        simp only [Option.some.injEq, Res.ok.injEq] at h
                        rw [← h]
                        exact he2
                    | some s2 =>
                        have := ih _ _ _ h
                        simp only [] at this
                        omega
          | whileS c b =>
              rw [run_whileS] at h
              cases heval : eval c σ.env with
              | none => rw [evalIn_eq_none _ _ _ heval] at h; simp at h
              | some p =>
                  obtain ⟨v, e2⟩ := p
                  rw [evalIn_eq_some _ _ _ _ _ heval] at h
                  have he2 := evalRest c σ.env v e2 heval
                  by_cases hv : truthy v = true
                  · rw [if_pos hv] at h
                    cases hb : run f (.one b) ⟨e2, σ.out⟩ with
                    | none => rw [hb, andThen_none] at h; simp at h
                    | some rb =>
                        cases rb with
                        | err o => rw [hb, andThen_err] at h; simp at h
                        | ok σ3 =>
                            rw [hb, andThen_ok] at h
                            have h3 := ih _ _ _ hb
                            have h4 := ih _ _ _ h
                            simp only [] at h3 h4
                            omega
                  · rw [if_neg hv] at h
                    simp only [Option.some.injEq, Res.ok.injEq] at h
                    rw [← h]
                    exact he2
          | forS fi c n b =>
              cases fi with
              | none =>
                  rw [run_forS_none] at h
                  exact ih _ _ _ h
              | some i =>
                  rw [run_forS_some] at h
                  cases hi : run f (.one i) (pushSt σ) with
                  | none => rw [hi, andThen_none] at h; simp at h
                  | some ri =>
                      cases ri with
                      | err o => rw [hi, andThen_err] at h; simp at h
                      | ok σ2 =>
                          rw [hi, andThen_ok] at h
                          cases hl : run f (.loop c n b) σ2 with
                          | none => rw [hl, popOk_none] at h; simp at h
                          | some rl =>
                              cases rl with
                              | err o => rw [hl, popOk_err] at h; simp at h
                              | ok σ3 =>
                                  rw [hl, popOk_ok] at h
                                  simp only [Option.some.injEq, Res.ok.injEq] at h
                                  have h2 := ih _ _ _ hi
                                  have h3 := ih _ _ _ hl
                                  simp only [pushSt] at h2
                                  rw [← h]
                                  simp only [popEnv]
                                  cases hr3 : σ3.env.rest with
                                  | nil =>
                                      rw [hr3] at h3
                                      simp only [List.length_nil] at h3
                                      simp only [List.length_cons] at h2
                                      omega
                                  | cons a r4 =>
                                      rw [hr3] at h3
                                      simp only [List.length_cons] at h2 h3 ⊢
                                      omega
      | many ss =>
          cases ss with
          | nil =>
              rw [run_many_nil] at h
              simp only [Option.some.injEq, Res.ok.injEq] at h
              rw [← h]
          | cons s t =>
              rw [run_many_cons] at h
              cases hs : run f (.one s) σ with
              | none => rw [hs, andThen_none] at h; simp at h
              | some rs =>
                  cases rs with
                  | err o => rw [hs, andThen_err] at h; simp at h
                  | ok σ2 =>
                      rw [hs, andThen_ok] at h
                      have h2 := ih _ _ _ hs
                      have h3 := ih _ _ _ h
                      omega
      | loop c n b =>
          cases n with
          | none =>
              rw [run_loop_none] at h
              cases heval : eval (condExpr c) σ.env with
              | none => rw [evalIn_eq_none _ _ _ heval] at h; simp at h
              | some p =>
                  obtain ⟨v, e2⟩ := p
                  rw [evalIn_eq_some _ _ _ _ _ heval] at h
                  have he2 := evalRest _ σ.env v e2 heval
                  by_cases hv : truthy v = true
                  · rw [if_pos hv] at h
                    cases hb : run f (.one b) ⟨e2, σ.out⟩ with
                    | none => rw [hb, andThen_none] at h; simp at h
                    | some rb =>
                        cases rb with
                        | err o => rw [hb, andThen_err] at h; simp at h
                        | ok σ3 =>
                            rw [hb, andThen_ok] at h
                            have h3 := ih _ _ _ hb
                            have h4 := ih _ _ _ h
                            simp only [] at h3 h4
                            omega
                  · rw [if_neg hv] at h
                    simp only [Option.some.injEq, Res.ok.injEq] at h
                    rw [← h]
                    exact he2
          | some gI =>
              rw [run_loop_some] at h
              cases heval : eval (condExpr c) σ.env with
              | none => rw [evalIn_eq_none _ _ _ heval] at h; simp at h
              | some p =>
                  obtain ⟨v, e2⟩ := p
                  rw [evalIn_eq_some _ _ _ _ _ heval] at h
                  have he2 := evalRest _ σ.env v e2 heval
                  by_cases hv : truthy v = true
                  · rw [if_pos hv] at h
                    cases hb : run f (.one b) ⟨e2, σ.out⟩ with
                    | none => rw [hb, andThen_none] at h; simp at h
                    | some rb =>
                        cases rb with
                        | err o => rw [hb, andThen_err] at h; simp at h
                        | ok σ3 =>
                            rw [hb, andThen_ok] at h
                            cases hgI : eval gI σ3.env with
                            | none => rw [evalIn_eq_none _ _ _ hgI] at h; simp at h
                            | some p2 =>
                                obtain ⟨v4, e4⟩ := p2
                                rw [evalIn_eq_some _ _ _ _ _ hgI] at h
                                have h3 := ih _ _ _ hb
                                have h4 := ih _ _ _ h
                                have h5 := evalRest gI σ3.env v4 e4 hgI
                                simp only [] at h3 h4
                                omega
                  · rw [if_neg hv] at h
                    simp only [Option.some.injEq, Res.ok.injEq] at h
                    rw [← h]
                    exact he2

theorem insertNil_zero (l : List Scope) : insertNil 0 l = ([] : Scope) :: l := rfl

theorem insertNil_cons (k : Nat) (s : Scope) (t : List Scope) :
    insertNil (k+1) (s :: t) = s :: insertNil k t := rfl

theorem insertNil_nil (k : Nat) : insertNil k [] = [([] : Scope)] := by
  cases k <;> rfl

theorem listGet_insert : ∀ (l : List Scope) (k : Nat) (x : String),
    listGet (insertNil k l) x = listGet l x := by
  intro l
  induction l with
  | nil =>
      intro k x
      rw [insertNil_nil]
      rfl
  | cons s t ih =>
      intro k x
      cases k with
      | zero => rw [insertNil_zero]; rfl
      | succ k =>
          rw [insertNil_cons]
          unfold listGet
          cases s.lookup x with
          | none => exact ih k x
          | some w => rfl

theorem listSet_insert : ∀ (l : List Scope) (k : Nat) (x : String) (v : Value),
    listSet (insertNil k l) x v = (listSet l x v).map (insertNil k) := by
  intro l
  induction l with
  | nil =>
      intro k x v
      rw [insertNil_nil]
      rfl
  | cons s t ih =>
      intro k x v
      cases k with
      | zero =>
          rw [insertNil_zero]
          show (listSet (s :: t) x v).map (([] : Scope) :: ·) = _
          cases listSet (s :: t) x v with
          | none => rfl
          | some l2 => rw [Option.map_some', Option.map_some', insertNil_zero]
      | succ k =>
          rw [insertNil_cons]
          unfold listSet
          cases hs : scopeSet s x v with
          | some s2 =>
              simp only [Option.map_some', Option.some.injEq]
              rw [insertNil_cons]
          | none =>
              rw [ih k x v]
              cases listSet t x v with
              | none => rfl
              | some t2 =>
                  simp only [Option.map_some']
                  rw [insertNil_cons]

theorem envToList_insAt (k : Nat) (e : Env) :
    (envInsAt k e).toList = insertNil k e.toList := by
  cases k with
  | zero => rw [insertNil_zero]; rfl
  | succ k =>
      show e.head :: insertNil k e.rest = insertNil (k+1) (e.head :: e.rest)
      rw [insertNil_cons]

theorem envGet_insAt (k : Nat) (e : Env) (x : String) :
    envGet (envInsAt k e) x = envGet e x := by
  unfold envGet
  rw [envToList_insAt, listGet_insert]

theorem envSet_insAt (k : Nat) (e : Env) (x : String) (v : Value) :
    envSet (envInsAt k e) x v = (envSet e x v).map (envInsAt k) := by
  unfold envSet
  rw [envToList_insAt, listSet_insert]
  cases hl : listSet e.toList x v with
  | none => rfl
  | some l2 =>
      have hlen := listSetLen e.toList x v l2 hl
      cases l2 with
      | nil => simp [Env.toList] at hlen
      | cons h2 r2 =>
          simp only [Option.map_some']
          cases k with
          | zero => rw [insertNil_zero]; rfl
          | succ k => rw [insertNil_cons]; rfl

theorem envDefine_insAt (k : Nat) (e : Env) (x : String) (v : Value) :
    envDefine (envInsAt (k+1) e) x v = envInsAt (k+1) (envDefine e x v) := rfl

theorem evalIns : ∀ (g : Expr) (k : Nat) (e : Env),
    eval g (envInsAt k e) = (eval g e).map (fun p => (p.1, envInsAt k p.2)) := by
  intro g
  induction g with
  | lit w => intro k e; rfl
  | var x =>
      intro k e
      simp only [eval]
      rw [envGet_insAt]
      cases envGet e x with
      | none => rfl
      | some w => rfl
  | assign x rhs ihr =>
      intro k e
      simp only [eval]
      rw [ihr k e]
      cases eval rhs e with
      | none => rfl
      | some p =>
          obtain ⟨w, e1⟩ := p
          simp only [Option.map_some']
          rw [envSet_insAt]
          cases envSet e1 x w with
          | none => rfl
          | some e3 => rfl
  | grouping g ihg => intro k e; exact ihg k e
  | unary op g ihg =>
      intro k e
      simp only [eval]
      rw [ihg k e]
      cases eval g e with
      | none => rfl
      | some p =>
          obtain ⟨w, e1⟩ := p
          simp only [Option.map_some']
          cases unaryOp op w with
          | none => rfl
          | some rr => rfl
  | binary op l r ihl ihr =>
      intro k e
      simp only [eval]
      rw [ihl k e]
      cases eval l e with
      | none => rfl
      | some p =>
          obtain ⟨a, e1⟩ := p
          simp only [Option.map_some']
          rw [ihr k e1]
          cases eval r e1 with
          | none => rfl
          | some p2 =>
              obtain ⟨b, e3⟩ := p2
              simp only [Option.map_some']
              cases binOp op a b with
              | none => rfl
              | some w => rfl
  | logical op l r ihl ihr =>
      intro k e
      simp only [eval]
      rw [ihl k e]
      cases eval l e with
      | none => rfl
      | some p =>
          obtain ⟨a, e1⟩ := p
          simp only [Option.map_some']
          cases op with
          | orOp =>
              simp only []
              by_cases ht : truthy a = true
              · rw [if_pos ht, if_pos ht]
                rfl
              · rw [if_neg ht, if_neg ht]
                exact ihr k e1
          | andOp =>
              simp only []
              by_cases ht : truthy a = true
              · rw [if_pos ht, if_pos ht]
                exact ihr k e1
              · rw [if_neg ht, if_neg ht]
                rfl

theorem pushLift (k : Nat) (σ : St) : pushSt (liftSt k σ) = liftSt (k+1) (pushSt σ) := by
  cases k <;> rfl

theorem popLift (k : Nat) (e : Env) (hne : e.rest ≠ []) :
    popEnv (envInsAt (k+1) e) = envInsAt k (popEnv e) := by
  obtain ⟨h, r⟩ := e
  cases r with
  | nil => exact absurd rfl hne
  | cons a r2 => cases k <;> rfl

theorem evalInLift (g : Expr) (σ : St) (k : Nat) (kont : Value → St → Option Res) :
    evalIn g (liftSt k σ) kont =
      (match eval g σ.env with
       | none => some (.err σ.out)
       | some (v, e2) => kont v (liftSt k ⟨e2, σ.out⟩)) := by
  unfold evalIn
  show (match eval g (envInsAt k σ.env) with
        | none => some (Res.err σ.out)
        | some (v, e2) => kont v ⟨e2, σ.out⟩) = _
  rw [evalIns g k σ.env]
  cases eval g σ.env with
  | none => rfl
  | some p => obtain ⟨v, e2⟩ := p; rfl

theorem isStatement_ifS_then (c : Expr) (t : Stmt) (e : Option Stmt)
    (h : isStatement (.ifS c t e) = true) : isStatement t = true := by
  cases e with
  | none => simpa [isStatement] using h
  | some s2 =>
      simp only [isStatement, Bool.and_eq_true] at h
      exact h.1

theorem isStatement_ifS_else (c : Expr) (t s2 : Stmt)
    (h : isStatement (.ifS c t (some s2)) = true) : isStatement s2 = true := by
  simp only [isStatement, Bool.and_eq_true] at h
  exact h.2

theorem runLift : ∀ (f : Nat),
    (∀ (s : Stmt) (σ : St) (k : Nat), (k = 0 → isStatement s = true) →
      run f (.one s) (liftSt k σ) = (run f (.one s) σ).map (liftRes k)) ∧
    (∀ (ss : List Stmt) (σ : St) (k : Nat),
      run f (.many ss) (liftSt (k+1) σ) = (run f (.many ss) σ).map (liftRes (k+1))) ∧
    (∀ (c n : Option Expr) (b : Stmt) (σ : St) (k : Nat), (k = 0 → isStatement b = true) →
      run f (.loop c n b) (liftSt k σ) = (run f (.loop c n b) σ).map (liftRes k)) := by
  intro f
  induction f with
  | zero => refine ⟨?_, ?_, ?_⟩ <;> intros <;> rfl
  | succ f ih =>
      obtain ⟨ihOne, ihMany, ihLoop⟩ := ih
      refine ⟨?_, ?_, ?_⟩
      · intro s σ k hks
        cases s with
        | exprS g =>
            rw [run_exprS, run_exprS, evalInLift]
            cases heval : eval g σ.env with
            | none => rw [evalIn_eq_none _ _ _ heval]; rfl
            | some p =>
                obtain ⟨v, e2⟩ := p
                rw [evalIn_eq_some _ _ _ _ _ heval]
                rfl
        | printS g =>
            rw [run_printS, run_printS, evalInLift]
            cases heval : eval g σ.env with
            | none => rw [evalIn_eq_none _ _ _ heval]; rfl
            | some p =>
                obtain ⟨v, e2⟩ := p
                rw [evalIn_eq_some _ _ _ _ _ heval]
                rfl
        | varS x i =>
            have hk : ¬ k = 0 := fun h0 => by simpa [isStatement] using hks h0
            obtain ⟨k2, rfl⟩ : ∃ k2, k = k2 + 1 := ⟨k - 1, by omega⟩
            rw [run_varS, run_varS, evalInLift]
            cases heval : eval (i.getD (.lit .nil)) σ.env with
            | none => rw [evalIn_eq_none _ _ _ heval]; rfl
            | some p =>
                obtain ⟨v, e2⟩ := p
                rw [evalIn_eq_some _ _ _ _ _ heval]
                rfl
        | block ss =>
            rw [run_block, run_block, pushLift, ihMany ss (pushSt σ) k]
            cases hrec : run f (.many ss) (pushSt σ) with
            | none => rfl
            | some r2 =>
                cases r2 with
                | err o => rfl
                | ok σm =>
                    have hlen := runRestLen f _ _ _ hrec
                    have hne : σm.env.rest ≠ [] := by
                      intro h0
                      rw [h0] at hlen
                      simp [pushSt] at hlen
                    simp only [Option.map_some', liftRes, popOk_ok, liftSt]
                    rw [popLift k σm.env hne]
        | ifS c t e =>
            rw [run_ifS, run_ifS, evalInLift]
            cases heval : eval c σ.env with
            | none => rw [evalIn_eq_none _ _ _ heval]; rfl
            | some p =>
                obtain ⟨v, e2⟩ := p
                rw [evalIn_eq_some _ _ _ _ _ heval]
                simp only []
                by_cases hv : truthy v = true
                · rw [if_pos hv, if_pos hv]
                  exact ihOne t ⟨e2, σ.out⟩ k
                    (fun h0 => isStatement_ifS_then c t e (hks h0))
                · rw [if_neg hv, if_neg hv]
                  cases e with
                  | none => rfl
                  | some s2 =>
                      exact ihOne s2 ⟨e2, σ.out⟩ k
                        (fun h0 => isStatement_ifS_else c t s2 (hks h0))
        | whileS c b =>
            rw [run_whileS, run_whileS, evalInLift]
            cases heval : eval c σ.env with
            | none => rw [evalIn_eq_none _ _ _ heval]; rfl
            | some p =>
                obtain ⟨v, e2⟩ := p
                rw [evalIn_eq_some _ _ _ _ _ heval]
                simp only []
                by_cases hv : truthy v = true
                · rw [if_pos hv, if_pos hv]
                  have hb : k = 0 → isStatement b = true := fun h0 => by
                    simpa [isStatement] using hks h0
                  rw [ihOne b ⟨e2, σ.out⟩ k hb]
                  cases hres : run f (.one b) ⟨e2, σ.out⟩ with
                  | none => rfl
                  | some rb =>
                      cases rb with
                      | err o => rfl
                      | ok σ3 =>
                          simp only [Option.map_some', liftRes, andThen_ok]
                          exact ihOne (.whileS c b) σ3 k
                            (fun h0 => by simpa [isStatement] using hks h0)
                · rw [if_neg hv, if_neg hv]
                  rfl
        | forS fi c n b =>
            cases fi with
            | none =>
                rw [run_forS_none, run_forS_none]
                exact ihLoop c n b σ k (fun h0 => by simpa [isStatement] using hks h0)
            | some i =>
                rw [run_forS_some, run_forS_some, pushLift]
                rw [ihOne i (pushSt σ) (k+1) (fun h0 => absurd h0 (by omega))]
                cases hres : run f (.one i) (pushSt σ) with
                | none => rfl
                | some ri =>
                    cases ri with
                    | err o => rfl
                    | ok σ2 =>
                        simp only [Option.map_some', liftRes, andThen_ok]
                        rw [ihLoop c n b σ2 (k+1) (fun h0 => absurd h0 (by omega))]
                        cases hl : run f (.loop c n b) σ2 with
                        | none => rfl
                        | some rl =>
                            cases rl with
                            | err o => rfl
                            | ok σ3 =>
                                have hlen2 := runRestLen f _ _ _ hres
                                have hlen3 := runRestLen f _ _ _ hl
                                have hne : σ3.env.rest ≠ [] := by
                                  intro h0
                                  rw [h0] at hlen3
                                  simp only [pushSt, List.length_cons] at hlen2
                                  simp only [List.length_nil] at hlen3
                                  omega
                                simp only [Option.map_some', liftRes, popOk_ok, liftSt]
                                rw [popLift k σ3.env hne]
      · intro ss σ k
        cases ss with
        | nil => rw [run_many_nil, run_many_nil]; rfl
        | cons s t =>
            rw [run_many_cons, run_many_cons]
            rw [ihOne s σ (k+1) (fun h0 => absurd h0 (by omega))]
            cases hs : run f (.one s) σ with
            | none => rfl
            | some rs =>
                cases rs with
                | err o => rfl
                | ok σ2 =>
                    simp only [Option.map_some', liftRes, andThen_ok]
                    exact ihMany t σ2 k
      · intro c n b σ k hkb
        cases n with
        | none =>
            rw [run_loop_none, run_loop_none, evalInLift]
            cases heval : eval (condExpr c) σ.env with
            | none => rw [evalIn_eq_none _ _ _ heval]; rfl
            | some p =>
                obtain ⟨v, e2⟩ := p
                rw [evalIn_eq_some _ _ _ _ _ heval]
                simp only []
                by_cases hv : truthy v = true
                · rw [if_pos hv, if_pos hv]
                  rw [ihOne b ⟨e2, σ.out⟩ k hkb]
                  cases hres : run f (.one b) ⟨e2, σ.out⟩ with
                  | none => rfl
                  | some rb =>
                      cases rb with
                      | err o => rfl
                      | ok σ3 =>
                          simp only [Option.map_some', liftRes, andThen_ok]
                          exact ihLoop c none b σ3 k hkb
                · rw [if_neg hv, if_neg hv]
                  rfl
        | some gI =>
            rw [run_loop_some, run_loop_some, evalInLift]
            cases heval : eval (condExpr c) σ.env with
            | none => rw [evalIn_eq_none _ _ _ heval]; rfl
            | some p =>
                obtain ⟨v, e2⟩ := p
                rw [evalIn_eq_some _ _ _ _ _ heval]
                simp only []
                by_cases hv : truthy v = true
                · rw [if_pos hv, if_pos hv]
                  rw [ihOne b ⟨e2, σ.out⟩ k hkb]
                  cases hres : run f (.one b) ⟨e2, σ.out⟩ with
                  | none => rfl
                  | some rb =>
                      cases rb with
                      | err o => rfl
                      | ok σ3 =>
                          simp only [Option.map_some', liftRes, andThen_ok]
                          rw [evalInLift gI σ3 k]
                          cases hI : eval gI σ3.env with
                          | none => rw [evalIn_eq_none _ _ _ hI]; rfl
                          | some p2 =>
                              obtain ⟨v4, e4⟩ := p2
                              rw [evalIn_eq_some _ _ _ _ _ hI]
                              exact ihLoop c (some gI) b ⟨e4, σ3.out⟩ k hkb
                · rw [if_neg hv, if_neg hv]
                  rfl

theorem andThen_eq_some (x : Option Res) (k : St → Option Res) (r : Res)
    (h : andThen x k = some r) :
    (∃ o, x = some (.err o) ∧ r = .err o) ∨
      (∃ σ, x = some (.ok σ) ∧ k σ = some r) := by
  cases x with
  | none => exact absurd h (by simp [andThen])
  | some r2 =>
      cases r2 with
      | err o =>
          have h2 : some (Res.err o) = some r := h
          injection h2 with h3
          exact Or.inl ⟨o, rfl, h3.symm⟩
      | ok σ => exact Or.inr ⟨σ, rfl, h⟩

theorem popOk_eq_some (x : Option Res) (r : Res) (h : popOk x = some r) :
    (∃ o, x = some (.err o) ∧ r = .err o) ∨
      (∃ σ, x = some (.ok σ) ∧ r = .ok ⟨popEnv σ.env, σ.out⟩) := by
  cases x with
  | none => exact absurd h (by simp [popOk])
  | some r2 =>
      cases r2 with
      | err o =>
          have h2 : some (Res.err o) = some r := h
          injection h2 with h3
          exact Or.inl ⟨o, rfl, h3.symm⟩
      | ok σ =>
          have h2 : some (Res.ok ⟨popEnv σ.env, σ.out⟩) = some r := h
          injection h2 with h3
          exact Or.inr ⟨σ, rfl, h3.symm⟩

theorem loopNoneWhile : ∀ (f : Nat) (c : Option Expr) (b : Stmt) (σ : St),
    run f (.loop c none b) σ = run f (.one (.whileS (condExpr c) b)) σ := by
  intro f
  induction f with
  | zero => intro c b σ; rfl
  | succ f ih =>
      intro c b σ
      rw [run_loop_none, run_whileS]
      cases heval : eval (condExpr c) σ.env with
      | none => rw [evalIn_eq_none _ _ _ heval, evalIn_eq_none _ _ _ heval]
      | some p =>
          obtain ⟨v, e2⟩ := p
          rw [evalIn_eq_some _ _ _ _ _ heval, evalIn_eq_some _ _ _ _ _ heval]
          by_cases hv : truthy v = true
          · rw [if_pos hv, if_pos hv]
            cases hbb : run f (.one b) ⟨e2, σ.out⟩ with
            | none => rfl
            | some rb =>
                cases rb with
                | err o => rfl
                | ok σ3 =>
                    rw [andThen_ok, andThen_ok]
                    exact ih c b σ3
          · rw [if_neg hv, if_neg hv]

theorem loopToWhile (c : Option Expr) (g : Expr) (b : Stmt) (hb : isStatement b = true) :
    ∀ (f : Nat) (σ : St) (r : Res), run f (.loop c (some g) b) σ = some r →
      ∃ f2, run f2 (.one (.whileS (condExpr c) (.block [b, .exprS g]))) σ = some r := by
  intro f
  induction f with
  | zero => intro σ r h; exact absurd h (by simp [run_zero])
  | succ f ih =>
      intro σ r h
      rw [run_loop_some] at h
      cases heval : eval (condExpr c) σ.env with
      | none =>
          rw [evalIn_eq_none _ _ _ heval] at h
          refine ⟨1, ?_⟩
          rw [run_whileS, evalIn_eq_none _ _ _ heval]
          exact h
      | some p =>
          obtain ⟨v, e2⟩ := p
          rw [evalIn_eq_some _ _ _ _ _ heval] at h
          by_cases hv : truthy v = true
          · rw [if_pos hv] at h
            rcases andThen_eq_some _ _ _ h with ⟨o, hx, rfl⟩ | ⟨σ3, hx, hk⟩
            · refine ⟨f + 5, ?_⟩
              rw [run_whileS, evalIn_eq_some _ _ _ _ _ heval, if_pos hv,
                run_block, run_many_cons,
                show pushSt (⟨e2, σ.out⟩ : St) = liftSt 0 ⟨e2, σ.out⟩ from rfl,
                (runLift (f+2)).1 b ⟨e2, σ.out⟩ 0 (fun _ => hb),
                runMono f _ _ _ hx (f+2) (by omega)]
              rfl
            · replace hk : evalIn g σ3 (fun _ σ4 =>
                  run f (.loop c (some g) b) σ4) = some r := hk
              cases hI : eval g σ3.env with
              | none =>
                  rw [evalIn_eq_none _ _ _ hI] at hk
                  refine ⟨f + 5, ?_⟩
                  rw [run_whileS, evalIn_eq_some _ _ _ _ _ heval, if_pos hv,
                    run_block, run_many_cons,
                    show pushSt (⟨e2, σ.out⟩ : St) = liftSt 0 ⟨e2, σ.out⟩ from rfl,
                    (runLift (f+2)).1 b ⟨e2, σ.out⟩ 0 (fun _ => hb),
                    runMono f _ _ _ hx (f+2) (by omega)]
                  simp only [Option.map_some', liftRes, andThen_ok]
                  rw [run_many_cons,
                    (runLift (f+1)).1 (.exprS g) σ3 0 (fun _ => rfl),
                    run_exprS, evalIn_eq_none _ _ _ hI]
                  exact hk
              | some p2 =>
                  obtain ⟨v4, e4⟩ := p2
                  rw [evalIn_eq_some _ _ _ _ _ hI] at hk
                  replace hk : run f (.loop c (some g) b) ⟨e4, σ3.out⟩ = some r := hk
                  obtain ⟨f2, hf2⟩ := ih ⟨e4, σ3.out⟩ r hk
                  refine ⟨f + f2 + 5, ?_⟩
                  rw [run_whileS, evalIn_eq_some _ _ _ _ _ heval, if_pos hv,
                    run_block, run_many_cons,
                    show pushSt (⟨e2, σ.out⟩ : St) = liftSt 0 ⟨e2, σ.out⟩ from rfl,
                    (runLift (f+f2+2)).1 b ⟨e2, σ.out⟩ 0 (fun _ => hb),
                    runMono f _ _ _ hx (f+f2+2) (by omega)]
                  simp only [Option.map_some', liftRes, andThen_ok]
                  rw [run_many_cons,
                    (runLift (f+f2+1)).1 (.exprS g) σ3 0 (fun _ => rfl),
                    run_exprS, evalIn_eq_some _ _ _ _ _ hI]
                  simp only [Option.map_some', liftRes, andThen_ok]
                  rw [run_many_nil, popOk_ok, andThen_ok]
                  exact runMono f2 _ _ _ hf2 (f+f2+4) (by omega)
          · rw [if_neg hv] at h
            refine ⟨1, ?_⟩
            rw [run_whileS, evalIn_eq_some _ _ _ _ _ heval, if_neg hv]
            exact h

theorem whileToLoop (c : Option Expr) (g : Expr) (b : Stmt) (hb : isStatement b = true) :
    ∀ (f : Nat) (σ : St) (r : Res),
      run f (.one (.whileS (condExpr c) (.block [b, .exprS g]))) σ = some r →
      ∃ f2, run f2 (.loop c (some g) b) σ = some r := by
  intro f
  induction f with
  | zero => intro σ r h; exact absurd h (by simp [run_zero])
  | succ f ih =>
      intro σ r h
      rw [run_whileS] at h
      cases heval : eval (condExpr c) σ.env with
      | none =>
          rw [evalIn_eq_none _ _ _ heval] at h
          refine ⟨1, ?_⟩
          rw [run_loop_some, evalIn_eq_none _ _ _ heval]
          exact h
      | some p =>
          obtain ⟨v, e2⟩ := p
          rw [evalIn_eq_some _ _ _ _ _ heval] at h
          by_cases hv : truthy v = true
          · rw [if_pos hv] at h
            rcases andThen_eq_some _ _ _ h with ⟨o, hx, rfl⟩ | ⟨σ4, hx, hk⟩
            · cases f with
              | zero => exact absurd hx (by simp [run_zero])
              | succ f1 =>
                  rw [run_block] at hx
                  have hm : run f1 (.many [b, .exprS g]) (pushSt ⟨e2, σ.out⟩) =
                      some (.err o) := by
                    rcases popOk_eq_some _ _ hx with ⟨o2, hm2, ho⟩ | ⟨σm, hm2, ho⟩
                    · injection ho with ho2
                      rw [hm2, ho2]
                    · exact absurd ho (by simp)
                  cases f1 with
                  | zero => exact absurd hm (by simp [run_zero])
                  | succ f2 =>
                      rw [run_many_cons,
                        show pushSt (⟨e2, σ.out⟩ : St) = liftSt 0 ⟨e2, σ.out⟩ from rfl,
                        (runLift f2).1 b ⟨e2, σ.out⟩ 0 (fun _ => hb)] at hm
                      cases hbb : run f2 (.one b) ⟨e2, σ.out⟩ with
                      | none =>
                          rw [hbb] at hm
                          exact absurd hm (by simp [andThen])
                      | some rb =>
                          cases rb with
                          | err ob =>
                              rw [hbb] at hm
                              simp only [Option.map_some', liftRes, andThen_err] at hm
                              refine ⟨f2 + 1, ?_⟩
                              rw [run_loop_some, evalIn_eq_some _ _ _ _ _ heval,
                                if_pos hv, hbb, andThen_err]
                              exact hm
                          | ok σ3 =>
                              rw [hbb] at hm
                              simp only [Option.map_some', liftRes, andThen_ok] at hm
                              cases f2 with
                              | zero => exact absurd hm (by simp [run_zero])
                              | succ f3 =>
                                  rw [run_many_cons,
                                    (runLift f3).1 (.exprS g) σ3 0 (fun _ => rfl)] at hm
                                  cases f3 with
                                  | zero =>
                                      rw [run_zero] at hm
                                      exact absurd hm (by simp [andThen])
                                  | succ f4 =>
                                      rw [run_exprS] at hm
                                      cases hI : eval g σ3.env with
                                      | none =>
                                          rw [evalIn_eq_none _ _ _ hI] at hm
                                          simp only [Option.map_some', liftRes,
                                            andThen_err] at hm
                                          refine ⟨f4 + 3, ?_⟩
                                          rw [run_loop_some,
                                            evalIn_eq_some _ _ _ _ _ heval, if_pos hv,
                                            hbb, andThen_ok, evalIn_eq_none _ _ _ hI]
                                          exact hm
                                      | some p2 =>
                                          obtain ⟨v4, e4⟩ := p2
                                          rw [evalIn_eq_some _ _ _ _ _ hI] at hm
                                          simp only [Option.map_some', liftRes,
                                            andThen_ok] at hm
                                          rw [run_many_nil] at hm
                                          exact absurd hm (by simp)
            · replace hk : run f (.one (.whileS (condExpr c)
                  (.block [b, .exprS g]))) σ4 = some r := hk
              obtain ⟨fL, hfL⟩ := ih σ4 r hk
              cases f with
              | zero => exact absurd hx (by simp [run_zero])
              | succ f1 =>
                  rw [run_block] at hx
                  rcases popOk_eq_some _ _ hx with ⟨o2, hm, ho⟩ | ⟨σm, hm, hσ4⟩
                  · exact absurd ho (by simp)
                  · cases f1 with
                    | zero => exact absurd hm (by simp [run_zero])
                    | succ f2 =>
                        rw [run_many_cons,
                          show pushSt (⟨e2, σ.out⟩ : St) = liftSt 0 ⟨e2, σ.out⟩ from rfl,
                          (runLift f2).1 b ⟨e2, σ.out⟩ 0 (fun _ => hb)] at hm
                        cases hbb : run f2 (.one b) ⟨e2, σ.out⟩ with
                        | none =>
                            rw [hbb] at hm
                            exact absurd hm (by simp [andThen])
                        | some rb =>
                            cases rb with
                            | err ob =>
                                rw [hbb] at hm
                                simp only [Option.map_some', liftRes, andThen_err] at hm
                                exact absurd hm (by simp)
                            | ok σ3 =>
                                rw [hbb] at hm
                                simp only [Option.map_some', liftRes, andThen_ok] at hm
                                cases f2 with
                                | zero => exact absurd hm (by simp [run_zero])
                                | succ f3 =>
                                    rw [run_many_cons,
                                      (runLift f3).1 (.exprS g) σ3 0 (fun _ => rfl)] at hm
                                    cases f3 with
                                    | zero =>
                                        rw [run_zero] at hm
                                        exact absurd hm (by simp [andThen])
                                    | succ f4 =>
                                        rw [run_exprS] at hm
                                        cases hI : eval g σ3.env with
                                        | none =>
                                            rw [evalIn_eq_none _ _ _ hI] at hm
                                            simp only [Option.map_some', liftRes,
                                              andThen_err] at hm
                                            exact absurd hm (by simp)
                                        | some p2 =>
                                            obtain ⟨v4, e4⟩ := p2
                                            rw [evalIn_eq_some _ _ _ _ _ hI] at hm
                                            simp only [Option.map_some', liftRes,
                                              andThen_ok] at hm
                                            rw [run_many_nil] at hm
                                            have hσm : liftSt 0 ⟨e4, σ3.out⟩ = σm := by
                                              injection hm with h9
                                              injection h9 with h10
                                            subst hσm
                                            injection hσ4 with hσ4b
                                            subst hσ4b
                                            refine ⟨f4 + fL + 4, ?_⟩
                                            rw [run_loop_some,
                                              evalIn_eq_some _ _ _ _ _ heval, if_pos hv,
                                              runMono _ _ _ _ hbb (f4+fL+3) (by omega),
                                              andThen_ok, evalIn_eq_some _ _ _ _ _ hI]
                                            exact runMono fL _ _ _ hfL (f4+fL+3) (by omega)
          · rw [if_neg hv] at h
            refine ⟨1, ?_⟩
            rw [run_loop_some, evalIn_eq_some _ _ _ _ _ heval, if_neg hv]
            exact h

theorem loopWhilePt (c n : Option Expr) (b : Stmt) (hb : isStatement b = true)
    (σ : St) (r : Res) :
    (∃ f, run f (.loop c n b) σ = some r) ↔
      (∃ f, run f (.one (.whileS (condExpr c) (loopBody n b))) σ = some r) := by
  cases n with
  | none =>
      constructor
      · rintro ⟨f, h⟩
        refine ⟨f, ?_⟩
        show run f (.one (.whileS (condExpr c) b)) σ = some r
        rw [← loopNoneWhile]
        exact h
      · rintro ⟨f, h⟩
        refine ⟨f, ?_⟩
        rw [loopNoneWhile]
        exact h
  | some g =>
      constructor
      · rintro ⟨f, h⟩
        exact loopToWhile c g b hb f σ r h
      · rintro ⟨f, h⟩
        exact whileToLoop c g b hb f σ r h

/-- C1: for every `for` statement `for (init; cond; incr) body` whose body
is a statement (as the grammar requires), the direct for-loop semantics
and the desugared form `{ init; while (cond) { body; incr; } }` — the
condition defaulting to the literal `true` when absent, the increment
appended inside the loop body only when present, and the initializer (and
its block) elided when absent — are indistinguishable on all observable
outputs and halting behavior: for every start state and every outcome
(normal completion, runtime error, each with its printed output), one form
reaches that outcome for some fuel exactly when the other does. -/
theorem for_desugar_equiv (fi : Option Stmt) (c n : Option Expr) (b : Stmt)
    (hb : isStatement b = true) (σ : St) (r : Res) :
    (∃ f, exec f (.forS fi c n b) σ = some r) ↔
      (∃ f, exec f (desugarFor fi c n b) σ = some r) := by
  cases fi with
  | none =>
      constructor
      · rintro ⟨f, h⟩
        cases f with
        | zero => exact absurd h (by simp [exec, run_zero])
        | succ f1 =>
            replace h : run f1 (.loop c n b) σ = some r := h
            obtain ⟨f2, h2⟩ := (loopWhilePt c n b hb σ r).mp ⟨f1, h⟩
            exact ⟨f2, h2⟩
      · rintro ⟨f, h⟩
        replace h : run f (.one (.whileS (condExpr c) (loopBody n b))) σ = some r := h
        obtain ⟨f2, h2⟩ := (loopWhilePt c n b hb σ r).mpr ⟨f, h⟩
        exact ⟨f2 + 1, h2⟩
  | some i =>
      constructor
      · rintro ⟨f, h⟩
        cases f with
        | zero => exact absurd h (by simp [exec, run_zero])
        | succ f1 =>
            replace h : andThen (run f1 (.one i) (pushSt σ))
                (fun σ2 => popOk (run f1 (.loop c n b) σ2)) = some r := h
            rcases andThen_eq_some _ _ _ h with ⟨o, hi, rfl⟩ | ⟨σ2, hi, hk⟩
            · refine ⟨f1 + 4, ?_⟩
              show run (f1+4) (.one (.block [i,
                .whileS (condExpr c) (loopBody n b)])) σ = some (.err o)
              rw [run_block, run_many_cons,
                runMono f1 _ _ _ hi (f1+2) (by omega), andThen_err, popOk_err]
            · replace hk : popOk (run f1 (.loop c n b) σ2) = some r := hk
              rcases popOk_eq_some _ _ hk with ⟨o, hl, rfl⟩ | ⟨σl, hl, rfl⟩
              · obtain ⟨fw, hw⟩ := (loopWhilePt c n b hb σ2 (.err o)).mp ⟨f1, hl⟩
                refine ⟨f1 + fw + 5, ?_⟩
                show run (f1+fw+5) (.one (.block [i,
                  .whileS (condExpr c) (loopBody n b)])) σ = some (.err o)
                rw [run_block, run_many_cons,
                  runMono f1 _ _ _ hi (f1+fw+3) (by omega)]
                simp only [andThen_ok]
                rw [run_many_cons, runMono fw _ _ _ hw (f1+fw+2) (by omega),
                  andThen_err, popOk_err]
              · obtain ⟨fw, hw⟩ := (loopWhilePt c n b hb σ2 (.ok σl)).mp ⟨f1, hl⟩
                refine ⟨f1 + fw + 5, ?_⟩
                show run (f1+fw+5) (.one (.block [i,
                  .whileS (condExpr c) (loopBody n b)])) σ =
                  some (.ok ⟨popEnv σl.env, σl.out⟩)
                rw [run_block, run_many_cons,
                  runMono f1 _ _ _ hi (f1+fw+3) (by omega)]
                simp only [andThen_ok]
                rw [run_many_cons, runMono fw _ _ _ hw (f1+fw+2) (by omega)]
                simp only [andThen_ok]
                rw [run_many_nil, popOk_ok]
      · rintro ⟨f, h⟩
        cases f with
        | zero => exact absurd h (by simp [exec, run_zero])
        | succ f1 =>
            replace h : popOk (run f1 (.many [i,
                .whileS (condExpr c) (loopBody n b)]) (pushSt σ)) = some r := h
            rcases popOk_eq_some _ _ h with ⟨o, hm, rfl⟩ | ⟨σm, hm, rfl⟩
            · cases f1 with
              | zero => exact absurd hm (by simp [run_zero])
              | succ f2 =>
                  rw [run_many_cons] at hm
                  rcases andThen_eq_some _ _ _ hm with ⟨o2, hi, ho⟩ | ⟨σ2, hi, hk⟩
                  · injection ho with ho2
                    subst ho2
                    refine ⟨f2 + 2, ?_⟩
                    show run (f2+2) (.one (.forS (some i) c n b)) σ = some (.err o)
                    rw [run_forS_some, runMono f2 _ _ _ hi (f2+1) (by omega),
                      andThen_err]
                  · replace hk : run f2 (.many [.whileS (condExpr c)
                        (loopBody n b)]) σ2 = some (.err o) := hk
                    cases f2 with
                    | zero => exact absurd hk (by simp [run_zero])
                    | succ f3 =>
                        rw [run_many_cons] at hk
                        rcases andThen_eq_some _ _ _ hk with
                          ⟨o2, hw, ho⟩ | ⟨σ3, hw, hk2⟩
                        · injection ho with ho2
                          subst ho2
                          obtain ⟨fL, hL⟩ :=
                            (loopWhilePt c n b hb σ2 (.err o)).mpr ⟨f3, hw⟩
                          refine ⟨f3 + fL + 2, ?_⟩
                          show run (f3+fL+2) (.one (.forS (some i) c n b)) σ =
                            some (.err o)
                          rw [run_forS_some,
                            runMono (f3+1) _ _ _ hi (f3+fL+1) (by omega)]
                          simp only [andThen_ok]
                          rw [runMono fL _ _ _ hL (f3+fL+1) (by omega), popOk_err]
                        · replace hk2 : run f3 (.many []) σ3 = some (.err o) := hk2
                          cases f3 with
                          | zero => exact absurd hk2 (by simp [run_zero])
                          | succ f4 =>
                              rw [run_many_nil] at hk2
                              exact absurd hk2 (by simp)
            · cases f1 with
              | zero => exact absurd hm (by simp [run_zero])
              | succ f2 =>
                  rw [run_many_cons] at hm
                  rcases andThen_eq_some _ _ _ hm with ⟨o2, hi, ho⟩ | ⟨σ2, hi, hk⟩
                  · exact absurd ho (by simp)
                  · replace hk : run f2 (.many [.whileS (condExpr c)
                        (loopBody n b)]) σ2 = some (.ok σm) := hk
                    cases f2 with
                    | zero => exact absurd hk (by simp [run_zero])
                    | succ f3 =>
                        rw [run_many_cons] at hk
                        rcases andThen_eq_some _ _ _ hk with
                          ⟨o2, hw, ho⟩ | ⟨σ3, hw, hk2⟩
                        · exact absurd ho (by simp)
                        · replace hk2 : run f3 (.many []) σ3 = some (.ok σm) := hk2
                          cases f3 with
                          | zero => exact absurd hk2 (by simp [run_zero])
                          | succ f4 =>
                              rw [run_many_nil] at hk2
                              have hσm : σ3 = σm := by
                                injection hk2 with h9
                                injection h9 with h10
                              subst hσm
                              obtain ⟨fL, hL⟩ :=
                                (loopWhilePt c n b hb σ2 (.ok σ3)).mpr ⟨f4+1, hw⟩
                              refine ⟨f4 + 1 + fL + 2, ?_⟩
                              show run (f4+1+fL+2) (.one (.forS (some i) c n b)) σ =
                                some (.ok ⟨popEnv σ3.env, σ3.out⟩)
                              rw [run_forS_some,
                                runMono (f4+2) _ _ _ hi (f4+1+fL+1) (by omega)]
                              simp only [andThen_ok]
                              rw [runMono fL _ _ _ hL (f4+1+fL+1) (by omega), popOk_ok]

/-- Witness for C1 at a concrete input: the body `print nil;` is a
statement, and the `for` with condition `false` and no initializer or
increment halts normally (leaving state unchanged), as the theorem then
guarantees for the desugared `while` form too. -/
theorem for_desugar_equiv_witness :
    isStatement (Stmt.printS (Expr.lit Value.nil)) = true ∧
    (∃ f, exec f (Stmt.forS none (some (Expr.lit (Value.bool false))) none
        (Stmt.printS (Expr.lit Value.nil))) ⟨⟨[], []⟩, []⟩ =
      some (Res.ok ⟨⟨[], []⟩, []⟩)) ∧
    (∃ f, exec f (desugarFor none (some (Expr.lit (Value.bool false))) none
        (Stmt.printS (Expr.lit Value.nil))) ⟨⟨[], []⟩, []⟩ =
      some (Res.ok ⟨⟨[], []⟩, []⟩)) :=
  ⟨rfl, ⟨2, rfl⟩,
    (for_desugar_equiv none (some (Expr.lit (Value.bool false))) none
        (Stmt.printS (Expr.lit Value.nil)) rfl ⟨⟨[], []⟩, []⟩
        (Res.ok ⟨⟨[], []⟩, []⟩)).mp ⟨2, rfl⟩⟩

end Lox
